import Mathlib

/-!
Verification of the FIFO tax-lot matching core of `profit_calculator.py`.

The embedding mirrors the source:

* Python `Decimal` values are modelled as rationals (`ℚ`) together with the
  value-level semantics of the default decimal context: every arithmetic
  result is rounded to 28 significant digits with round-half-even
  (`decRound`).  Subtraction, multiplication and division of the source are
  `dSub`, `dMul`, `dDiv`.  A result that fits in 28 significant digits is
  returned exactly; otherwise it is rounded at the 28th significant digit,
  exactly as `decimal.Decimal` does with the default context.
* The module-level dict `queues` is an insertion-ordered association list
  (`Queues`); `qFind`/`qSet` model subscripting and assignment, where
  assignment to a fresh key appends the binding (dict insertion order).
* Timestamps are integer day counts; `datetime.timedelta(weeks=52)` is the
  exact constant 364 (days), and datetime subtraction is exact.
* Python exceptions (`KeyError`, `IndexError`, division by zero) are an
  explicit `PyErr` result; the state returned alongside an error is the
  state as already mutated when the exception is raised, which is what the
  caller of the Python function observes.
* `str.upper()` on the ASCII asset symbols is `pyUpper`.
-/

namespace ProfitCalc

/-- Round a rational to the nearest integer, ties to even
(the rounding used by the default decimal context, applied to the
scaled coefficient). -/
def roundHalfEven (v : ℚ) : ℤ :=
  if v - ⌊v⌋ < 1 / 2 then ⌊v⌋
  else if 1 / 2 < v - ⌊v⌋ then ⌊v⌋ + 1
  else if 2 ∣ ⌊v⌋ then ⌊v⌋ else ⌊v⌋ + 1

/-- Floor of the base-10 logarithm of the positive rational `a / b`,
computed from the natural numbers `a` and `b`. -/
def qexp (a b : ℕ) : ℤ :=
  if b ≤ a then (Nat.log 10 (a / b) : ℤ)
  else if a * 10 ^ Nat.log 10 (b / a) = b then -(Nat.log 10 (b / a) : ℤ)
  else -(Nat.log 10 (b / a) : ℤ) - 1

/-- Value-level rounding of the default decimal context: round `v` to 28
significant decimal digits, half-even.  A value representable in at most 28
significant digits is unchanged. -/
def decRound (v : ℚ) : ℚ :=
  if v = 0 then 0
  else
    (if v < 0 then -1 else 1) *
      ((roundHalfEven (|v| * (10 : ℚ) ^ (27 - qexp v.num.natAbs v.den)) : ℚ) *
        (10 : ℚ) ^ (qexp v.num.natAbs v.den - 27))

/-- Decimal subtraction (`x - y` on `Decimal`s). -/
def dSub (x y : ℚ) : ℚ := decRound (x - y)

/-- Decimal multiplication (`x * y` on `Decimal`s). -/
def dMul (x y : ℚ) : ℚ := decRound (x * y)

/-- Decimal division (`x / y` on `Decimal`s); callers raise before dividing
by zero, so `y ≠ 0` at every use site. -/
def dDiv (x y : ℚ) : ℚ := decRound (x / y)

/-- Model of `str.upper()` for the ASCII asset symbols. -/
def pyUpper (s : String) : String := ⟨s.data.map Char.toUpper⟩

/-- A Python exception escaping one of the handlers. -/
inductive PyErr where
  | keyError (k : String)
  | indexError
  | zeroDivisionError
deriving DecidableEq

/-- One entry of an asset's queue: the tuple
`(ts, quantity, total / quantity)` appended by `on_buy`. -/
structure Lot where
  ts : ℤ
  qty : ℚ
  cost : ℚ
deriving DecidableEq

/-- `TransactionRecord` from the source: one realized-gain fragment.
`gain` and `islong` are computed in `__init__` from the other fields. -/
structure TransactionRecord where
  asset : String
  quantity : ℚ
  acq_date : ℤ
  sell_date : ℤ
  proceeds : ℚ
  basis : ℚ
  gain : ℚ
  islong : Bool
deriving DecidableEq

/-- `TransactionRecord.__init__`: stores the arguments, computes
`gain = proceeds - basis` (Decimal subtraction) and
`islong = (sell_date - acq_date) > timedelta(weeks=52)`, where 52 weeks is
exactly 364 days and dates are integer day counts. -/
def mkTransactionRecord (asset : String) (quantity : ℚ) (date_acquired date_sold : ℤ)
    (sale_price acq_price : ℚ) : TransactionRecord :=
  { asset := asset
    quantity := quantity
    acq_date := date_acquired
    sell_date := date_sold
    proceeds := sale_price
    basis := acq_price
    gain := dSub sale_price acq_price
    islong := decide ((364 : ℤ) < date_sold - date_acquired) }

/-- `TransactionRecord.getlong`. -/
def TransactionRecord.getlong (r : TransactionRecord) : String :=
  if r.islong then "long" else "short"

/-- An element of `other_income`: the tuple `(ts, asset, quantity, total)`. -/
abbrev Income := ℤ × String × ℚ × ℚ

/-- The module-level dict `queues`, in insertion order. -/
abbrev Queues := List (String × List Lot)

/-- Dict lookup `queues[a]` (as an `Option`). -/
def qFind : Queues → String → Option (List Lot)
  | [], _ => none
  | (b, l) :: rest, a => if b = a then some l else qFind rest a

/-- Dict assignment `queues[a] = l`: overwrite in place, or append a new
binding (Python dicts preserve insertion order). -/
def qSet : Queues → String → List Lot → Queues
  | [], a, l => [(a, l)]
  | (b, lb) :: rest, a, l => if b = a then (a, l) :: rest else (b, lb) :: qSet rest a l

/-- The module-level mutable state: `queues`, `total_profits`,
`other_income`. -/
structure PState where
  queues : Queues
  total_profits : List TransactionRecord
  other_income : List Income
deriving DecidableEq

/-- The initial module state: empty dict, empty result collections. -/
def initState : PState := { queues := [], total_profits := [], other_income := [] }

/-- The asset's queue, as the source reads it (`queues[a]`), defaulting to
empty for an absent key when only the lot contents matter. -/
def queueOf (st : PState) (a : String) : List Lot := (qFind st.queues a).getD []

/-- Total remaining quantity across a queue's lots. -/
def lotSum (q : List Lot) : ℚ := (q.map Lot.qty).sum

/-- `on_buy`: create `queues[asset] = []` when the raw key is unseen, then
append `(ts, quantity, total / quantity)` to `queues[asset.upper()]`.
The method lookup `queues[asset.upper()].append` raises `KeyError` before
the argument tuple (and hence the division) is evaluated. -/
def on_buy (st : PState) (ts : ℤ) (asset : String) (quantity total : ℚ) :
    PState × Option PyErr :=
  let qs1 := if (qFind st.queues asset).isSome then st.queues else qSet st.queues asset []
  match qFind qs1 (pyUpper asset) with
  | none => ({ st with queues := qs1 }, some (PyErr.keyError (pyUpper asset)))
  | some q =>
      if quantity = 0 then ({ st with queues := qs1 }, some PyErr.zeroDivisionError)
      else
        ({ st with queues := qSet qs1 (pyUpper asset) (q ++ [⟨ts, quantity, dDiv total quantity⟩]) },
          none)

/-- The `while quantity > 0` loop of `on_sell`, acting on the asset's queue.
Returns the queue as left behind, the `gains` accumulated in loop order, and
the exception (if any) that ended the loop: `IndexError` from `queue[0]`
when the queue runs out while quantity remains. -/
def sellLoop (asset : String) (sell_date : ℤ) (svpq : ℚ) :
    List Lot → ℚ → List Lot × List TransactionRecord × Option PyErr
  | [], quantity =>
    if 0 < quantity then ([], [], some PyErr.indexError) else ([], [], none)
  | lot :: rest, quantity =>
    if 0 < quantity then
      if quantity < lot.qty then
        (⟨lot.ts, dSub lot.qty quantity, lot.cost⟩ :: rest,
          [mkTransactionRecord asset quantity lot.ts sell_date
            (dMul quantity svpq) (dMul quantity lot.cost)], none)
      else
        let r := sellLoop asset sell_date svpq rest (dSub quantity lot.qty)
        (r.1,
          mkTransactionRecord asset lot.qty lot.ts sell_date
            (dMul lot.qty svpq) (dMul lot.qty lot.cost) :: r.2.1,
          r.2.2)
    else (lot :: rest, [], none)

/-- `on_sell`: computes `sell_value_per_qty = total / quantity`
(`ZeroDivisionError` when `quantity == 0`), reads `queue = queues[asset]`
(`KeyError` when absent), then runs the FIFO loop.  Because `queue` aliases
the dict entry, the lots consumed before an exception stay consumed. -/
def on_sell (st : PState) (ts : ℤ) (asset : String) (quantity total : ℚ) :
    PState × Except PyErr (List TransactionRecord) :=
  if quantity = 0 then (st, Except.error PyErr.zeroDivisionError)
  else
    let svpq := dDiv total quantity
    match qFind st.queues asset with
    | none => (st, Except.error (PyErr.keyError asset))
    | some queue =>
        match sellLoop asset ts svpq queue quantity with
        | (q2, gains, none) =>
            ({ st with queues := qSet st.queues asset q2 }, Except.ok gains)
        | (q2, _, some e) =>
            ({ st with queues := qSet st.queues asset q2 }, Except.error e)

/-- `on_income`: append the `(ts, asset, quantity, total)` tuple to
`other_income`, then feed the units into the ledger exactly as a buy. -/
def on_income (st : PState) (ts : ℤ) (asset : String) (quantity total : ℚ) :
    PState × Option PyErr :=
  on_buy { st with other_income := st.other_income ++ [(ts, asset, quantity, total)] }
    ts asset quantity total

/-- `on_convert`: a sell of the source leg (its gains extended onto
`total_profits`) immediately followed by a buy of the target leg.  An
exception in the sell propagates, so the buy never runs. -/
def on_convert (st : PState) (ts : ℤ) (src_asset : String) (src_quantity proceeds : ℚ)
    (tgt_asset : String) (tgt_quantity tgt_basis : ℚ) : PState × Option PyErr :=
  match on_sell st ts src_asset src_quantity proceeds with
  | (st1, Except.error e) => (st1, some e)
  | (st1, Except.ok gains) =>
      on_buy { st1 with total_profits := st1.total_profits ++ gains } ts tgt_asset
        tgt_quantity tgt_basis

/-- An acquire or consume operation, as dispatched by the processing pass. -/
inductive Op where
  | buy (ts : ℤ) (asset : String) (quantity total : ℚ)
  | sell (ts : ℤ) (asset : String) (quantity total : ℚ)

/-- One dispatch step; `none` when the operation raised.  A successful sell
extends `total_profits` with the returned gains, as the callers of
`on_sell` do. -/
def step (st : PState) : Op → Option PState
  | Op.buy ts a q t =>
      match on_buy st ts a q t with
      | (st1, none) => some st1
      | (_, some _) => none
  | Op.sell ts a q t =>
      match on_sell st ts a q t with
      | (st1, Except.ok gains) =>
          some { st1 with total_profits := st1.total_profits ++ gains }
      | (_, Except.error _) => none

/-- Run a sequence of operations; `none` as soon as one raises. -/
def runOps : PState → List Op → Option PState
  | st, [] => some st
  | st, op :: rest =>
      match step st op with
      | some st1 => runOps st1 rest
      | none => none

/-- Sum of the quantities of the acquire operations for one asset symbol. -/
def acquiredSum (A : String) : List Op → ℚ
  | [] => 0
  | Op.buy _ a q _ :: rest => (if a = A then q else 0) + acquiredSum A rest
  | Op.sell _ _ _ _ :: rest => acquiredSum A rest

/-- Sum of the quantities of the consume operations for one asset symbol. -/
def disposedSum (A : String) : List Op → ℚ
  | [] => 0
  | Op.buy _ _ _ _ :: rest => disposedSum A rest
  | Op.sell _ a q _ :: rest => (if a = A then q else 0) + disposedSum A rest

/-! ### Properties of the decimal rounding model -/

theorem roundHalfEven_intCast (n : ℤ) : roundHalfEven (n : ℚ) = n := by
  simp [roundHalfEven]

theorem floor_le_roundHalfEven (v : ℚ) : ⌊v⌋ ≤ roundHalfEven v := by
  unfold roundHalfEven
  split
  · exact le_refl _
  · split
    · exact le_of_lt (lt_add_one _)
    · split
      · exact le_refl _
      · exact le_of_lt (lt_add_one _)

theorem qexp_spec (a b : ℕ) (ha : 0 < a) (hb : 0 < b) :
    (10 : ℚ) ^ qexp a b ≤ (a : ℚ) / b ∧ (a : ℚ) / b < (10 : ℚ) ^ (qexp a b + 1) := by
  have hb' : (0 : ℚ) < b := by exact_mod_cast hb
  unfold qexp
  by_cases hba : b ≤ a
  · simp only [hba, if_true]
    set L := Nat.log 10 (a / b) with hL
    have hdiv : a / b ≠ 0 := (Nat.div_pos hba hb).ne'
    constructor
    · have h1 : 10 ^ L ≤ a / b := Nat.pow_log_le_self 10 hdiv
      have h2 : ((a / b : ℕ) : ℚ) ≤ (a : ℚ) / b := Nat.cast_div_le
      have h3 : ((10 ^ L : ℕ) : ℚ) ≤ ((a / b : ℕ) : ℚ) := by exact_mod_cast h1
      calc (10 : ℚ) ^ (L : ℤ) = ((10 ^ L : ℕ) : ℚ) := by rw [zpow_natCast]; norm_cast
        _ ≤ (a : ℚ) / b := le_trans h3 h2
    · have h1 : a / b < 10 ^ (L + 1) := Nat.lt_pow_succ_log_self (by norm_num) (a / b)
      have h2 : a < b * (a / b + 1) := by
        have hdm : b * (a / b) + a % b = a := Nat.div_add_mod a b
        have hm : a % b < b := Nat.mod_lt a hb
        calc a = b * (a / b) + a % b := hdm.symm
          _ < b * (a / b) + b := by omega
          _ = b * (a / b + 1) := by ring
      have h3 : (a : ℚ) / b < ((a / b : ℕ) : ℚ) + 1 := by
        rw [div_lt_iff₀ hb']
        have : (a : ℚ) < (b : ℚ) * (((a / b : ℕ) : ℚ) + 1) := by exact_mod_cast h2
        linarith [this]
      have h4 : ((a / b : ℕ) : ℚ) + 1 ≤ ((10 ^ (L + 1) : ℕ) : ℚ) := by
        have : a / b + 1 ≤ 10 ^ (L + 1) := h1
        exact_mod_cast this
      have hpow : ((10 ^ (L + 1) : ℕ) : ℚ) = (10 : ℚ) ^ ((L : ℤ) + 1) := by
        have he : ((L : ℤ) + 1) = ((L + 1 : ℕ) : ℤ) := by push_cast; ring
        rw [he, zpow_natCast]
        norm_cast
      calc (a : ℚ) / b < ((a / b : ℕ) : ℚ) + 1 := h3
        _ ≤ ((10 ^ (L + 1) : ℕ) : ℚ) := h4
        _ = (10 : ℚ) ^ ((L : ℤ) + 1) := hpow
  · push_neg at hba
    have hab : a ≤ b := le_of_lt hba
    have ha' : (0 : ℚ) < a := by exact_mod_cast ha
    have hdiv : b / a ≠ 0 := (Nat.div_pos hab ha).ne'
    set L := Nat.log 10 (b / a) with hL
    have hlow : 10 ^ L * a ≤ b := (Nat.le_div_iff_mul_le ha).mp (Nat.pow_log_le_self 10 hdiv)
    have hlow' : a * 10 ^ L ≤ b := by rw [Nat.mul_comm]; exact hlow
    simp only [hba.not_le, if_false]
    by_cases hex : a * 10 ^ L = b
    · simp only [hex, if_true]
      have hbq : (b : ℚ) = (a : ℚ) * (10 : ℚ) ^ L := by exact_mod_cast hex.symm
      have hv : (a : ℚ) / b = (10 : ℚ) ^ (-(L : ℤ)) := by
        rw [hbq, zpow_neg, zpow_natCast]
        rw [div_mul_eq_div_div]
        rw [div_self (ne_of_gt ha'), one_div]
      constructor
      · rw [hv]
      · rw [hv]
        exact zpow_lt_zpow_right₀ (by norm_num) (by omega)
    · simp only [hex, if_false]
      have hstrict : a * 10 ^ L < b := lt_of_le_of_ne hlow' hex
      constructor
      · -- b ≤ a * 10 ^ (L + 1), else the log would be at least L + 1
        have hb_le : b ≤ a * 10 ^ (L + 1) := by
          by_contra hcon
          push_neg at hcon
          have hcon' : 10 ^ (L + 1) * a ≤ b := by
            rw [Nat.mul_comm]; exact Nat.le_of_lt hcon
          have h1 : 10 ^ (L + 1) ≤ b / a := (Nat.le_div_iff_mul_le ha).mpr hcon'
          have h2 : L + 1 ≤ L := by
            rw [hL]
            exact (Nat.pow_le_iff_le_log (by norm_num) hdiv).mp h1
          omega
        have hcast : (b : ℚ) ≤ (a : ℚ) * (10 : ℚ) ^ ((L : ℕ) + 1) := by exact_mod_cast hb_le
        have hstep : (1 : ℚ) / ((10 : ℚ) ^ ((L : ℕ) + 1)) ≤ (a : ℚ) / b := by
          rw [div_le_div_iff₀ (by positivity) hb']
          linarith [hcast]
        calc (10 : ℚ) ^ (-(L : ℤ) - 1) = 1 / ((10 : ℚ) ^ ((L : ℕ) + 1)) := by
              rw [show (-(L : ℤ) - 1) = -(((L : ℕ) + 1 : ℕ) : ℤ) by push_cast; ring]
              rw [zpow_neg, zpow_natCast, one_div]
          _ ≤ (a : ℚ) / b := hstep
      · rw [show (-(L : ℤ) - 1 + 1) = -(L : ℤ) by ring]
        have hcast : (a : ℚ) * (10 : ℚ) ^ (L : ℕ) < (b : ℚ) := by exact_mod_cast hstrict
        have hstep : (a : ℚ) / b < 1 / ((10 : ℚ) ^ (L : ℕ)) := by
          rw [div_lt_div_iff₀ hb' (by positivity)]
          linarith [hcast]
        calc (a : ℚ) / b < 1 / ((10 : ℚ) ^ (L : ℕ)) := hstep
          _ = (10 : ℚ) ^ (-(L : ℤ)) := by rw [zpow_neg, zpow_natCast, one_div]

theorem qexp_self_le (v : ℚ) (hv : 0 < v) :
    (10 : ℚ) ^ qexp v.num.natAbs v.den ≤ v ∧ v < (10 : ℚ) ^ (qexp v.num.natAbs v.den + 1) := by
  have hnum : 0 < v.num := Rat.num_pos.mpr hv
  have hden : 0 < v.den := v.den_pos
  have hcast : ((v.num.natAbs : ℕ) : ℚ) = (v.num : ℚ) := by
    rw [Int.cast_natAbs]
    exact_mod_cast abs_of_pos hnum
  have hv' : ((v.num.natAbs : ℕ) : ℚ) / ((v.den : ℕ) : ℚ) = v := by
    rw [hcast]
    exact Rat.num_div_den v
  have := qexp_spec v.num.natAbs v.den (Int.natAbs_pos.mpr (ne_of_gt hnum)) hden
  rw [hv'] at this
  exact this

theorem qexp_eq_of_bounds (v : ℚ) (E : ℤ) (hv : 0 < v)
    (h1 : (10 : ℚ) ^ E ≤ v) (h2 : v < (10 : ℚ) ^ (E + 1)) :
    qexp v.num.natAbs v.den = E := by
  obtain ⟨g1, g2⟩ := qexp_self_le v hv
  set F := qexp v.num.natAbs v.den
  have hFE : F < E + 1 := by
    have : (10 : ℚ) ^ F < (10 : ℚ) ^ (E + 1) := lt_of_le_of_lt g1 h2
    exact (zpow_lt_zpow_iff_right₀ (by norm_num)).mp this
  have hEF : E < F + 1 := by
    have : (10 : ℚ) ^ E < (10 : ℚ) ^ (F + 1) := lt_of_le_of_lt h1 g2
    exact (zpow_lt_zpow_iff_right₀ (by norm_num)).mp this
  omega

theorem decRound_of_pos (v : ℚ) (hv : 0 < v) :
    decRound v = (roundHalfEven (v * (10 : ℚ) ^ (27 - qexp v.num.natAbs v.den)) : ℚ) *
      (10 : ℚ) ^ (qexp v.num.natAbs v.den - 27) := by
  rw [decRound, if_neg (ne_of_gt hv), if_neg (not_lt.mpr (le_of_lt hv)), abs_of_pos hv, one_mul]

theorem decRound_eq_of_bounds (v : ℚ) (E : ℤ) (hv : 0 < v)
    (h1 : (10 : ℚ) ^ E ≤ v) (h2 : v < (10 : ℚ) ^ (E + 1)) :
    decRound v = (roundHalfEven (v * (10 : ℚ) ^ (27 - E)) : ℚ) * (10 : ℚ) ^ (E - 27) := by
  rw [decRound_of_pos v hv, qexp_eq_of_bounds v E hv h1 h2]

theorem decRound_neg_arg (v : ℚ) : decRound (-v) = -decRound v := by
  by_cases hv : v = 0
  · simp [hv, decRound]
  · have hnum : (-v).num.natAbs = v.num.natAbs := by
      rw [Rat.num_neg_eq_neg_num, Int.natAbs_neg]
    have hden : (-v).den = v.den := Rat.den_neg_eq_den v
    rcases lt_trichotomy v 0 with hlt | heq | hgt
    · rw [decRound, decRound, if_neg (neg_ne_zero.mpr hv), if_neg hv,
        if_neg (not_lt.mpr (le_of_lt (neg_pos.mpr hlt))), if_pos hlt, abs_neg, hnum, hden]
      ring
    · exact absurd heq hv
    · rw [decRound, decRound, if_neg (neg_ne_zero.mpr hv), if_neg hv,
        if_pos (neg_neg_iff_pos.mpr hgt), if_neg (not_lt.mpr (le_of_lt hgt)), abs_neg, hnum, hden]
      ring

theorem decRound_exact_pos (m : ℕ) (e : ℤ) (hm0 : 0 < m) (hm : m < 10 ^ 28) :
    decRound ((m : ℚ) * (10 : ℚ) ^ e) = (m : ℚ) * (10 : ℚ) ^ e := by
  set v : ℚ := (m : ℚ) * (10 : ℚ) ^ e with hvdef
  have hm' : (0 : ℚ) < (m : ℚ) := by exact_mod_cast hm0
  have hv : 0 < v := by
    apply mul_pos hm'
    exact zpow_pos (by norm_num) e
  set E := qexp v.num.natAbs v.den with hE
  obtain ⟨g1, g2⟩ := qexp_self_le v hv
  have hub : v < (10 : ℚ) ^ (e + 28) := by
    have h1 : (m : ℚ) < (10 : ℚ) ^ (28 : ℕ) := by exact_mod_cast hm
    have h2 : (10 : ℚ) ^ (e + 28) = (10 : ℚ) ^ (28 : ℕ) * (10 : ℚ) ^ e := by
      rw [zpow_add₀ (by norm_num : (10 : ℚ) ≠ 0)]
      rw [show ((28 : ℤ)) = ((28 : ℕ) : ℤ) by norm_num, zpow_natCast]
      ring
    rw [hvdef, h2]
    exact mul_lt_mul_of_pos_right h1 (zpow_pos (by norm_num) e)
  have hElt : E < e + 28 := by
    have : (10 : ℚ) ^ E < (10 : ℚ) ^ (e + 28) := lt_of_le_of_lt g1 hub
    exact (zpow_lt_zpow_iff_right₀ (by norm_num)).mp this
  have hd : 0 ≤ e + 27 - E := by omega
  set d : ℕ := (e + 27 - E).toNat with hddef
  have hdE : (d : ℤ) = e + 27 - E := Int.toNat_of_nonneg hd
  have hscale : v * (10 : ℚ) ^ (27 - E) = ((m * 10 ^ d : ℕ) : ℚ) := by
    push_cast
    rw [hvdef, mul_assoc, ← zpow_natCast (10 : ℚ) d, ← zpow_add₀ (by norm_num : (10 : ℚ) ≠ 0)]
    congr 1
    congr 1
    omega
  have hround : roundHalfEven (v * (10 : ℚ) ^ (27 - E)) = ((m * 10 ^ d : ℕ) : ℤ) := by
    rw [hscale]
    have : (((m * 10 ^ d : ℕ) : ℤ) : ℚ) = ((m * 10 ^ d : ℕ) : ℚ) := by push_cast; ring
    rw [← this, roundHalfEven_intCast]
  rw [decRound_of_pos v hv, ← hE, hround]
  push_cast
  rw [mul_assoc, ← zpow_natCast (10 : ℚ) d, ← zpow_add₀ (by norm_num : (10 : ℚ) ≠ 0)]
  congr 2
  omega

theorem decRound_exact (j : ℤ) (e : ℤ) (hj : j.natAbs < 10 ^ 28) :
    decRound ((j : ℚ) * (10 : ℚ) ^ e) = (j : ℚ) * (10 : ℚ) ^ e := by
  rcases lt_trichotomy j 0 with hlt | heq | hgt
  · have h3 : ((j.natAbs : ℕ) : ℚ) = -(j : ℚ) := by
      rw [Int.cast_natAbs]
      exact_mod_cast abs_of_neg hlt
    have h1 : ((j : ℚ) * (10 : ℚ) ^ e) = -(((j.natAbs : ℕ) : ℚ) * (10 : ℚ) ^ e) := by
      rw [h3]; ring
    rw [h1, decRound_neg_arg, decRound_exact_pos j.natAbs e (Int.natAbs_pos.mpr (ne_of_lt hlt)) hj]
  · subst heq; simp [decRound]
  · have h3 : ((j.natAbs : ℕ) : ℚ) = (j : ℚ) := by
      rw [Int.cast_natAbs]
      exact_mod_cast abs_of_pos hgt
    have h1 : ((j : ℚ) * (10 : ℚ) ^ e) = ((j.natAbs : ℕ) : ℚ) * (10 : ℚ) ^ e := by rw [h3]
    rw [h1, decRound_exact_pos j.natAbs e (Int.natAbs_pos.mpr (ne_of_gt hgt)) hj]

theorem decRound_eq_self (v : ℚ) (j : ℤ) (e : ℤ) (hj : j.natAbs < 10 ^ 28)
    (hv : v = (j : ℚ) * (10 : ℚ) ^ e) : decRound v = v := by
  rw [hv]; exact decRound_exact j e hj

theorem decRound_pos (v : ℚ) (hv : 0 < v) : 0 < decRound v := by
  rw [decRound_of_pos v hv]
  obtain ⟨g1, _⟩ := qexp_self_le v hv
  set E := qexp v.num.natAbs v.den
  have hx : (1 : ℚ) ≤ v * (10 : ℚ) ^ (27 - E) := by
    have h10 : (0 : ℚ) < (10 : ℚ) ^ (27 - E) := zpow_pos (by norm_num) _
    have : (10 : ℚ) ^ E * (10 : ℚ) ^ (27 - E) ≤ v * (10 : ℚ) ^ (27 - E) :=
      mul_le_mul_of_nonneg_right g1 (le_of_lt h10)
    calc (1 : ℚ) ≤ (10 : ℚ) ^ (27 : ℤ) := by norm_num
      _ = (10 : ℚ) ^ E * (10 : ℚ) ^ (27 - E) := by
          rw [← zpow_add₀ (by norm_num : (10 : ℚ) ≠ 0)]; congr 1; ring
      _ ≤ v * (10 : ℚ) ^ (27 - E) := this
  have hfloor : (1 : ℤ) ≤ ⌊v * (10 : ℚ) ^ (27 - E)⌋ := by
    rw [Int.le_floor]; exact_mod_cast hx
  have hround : (1 : ℤ) ≤ roundHalfEven (v * (10 : ℚ) ^ (27 - E)) :=
    le_trans hfloor (floor_le_roundHalfEven _)
  have : (0 : ℚ) < (roundHalfEven (v * (10 : ℚ) ^ (27 - E)) : ℚ) := by exact_mod_cast hround
  exact mul_pos this (zpow_pos (by norm_num) _)

theorem decRound_nonneg (v : ℚ) (hv : 0 ≤ v) : 0 ≤ decRound v := by
  rcases eq_or_lt_of_le hv with heq | hlt
  · rw [← heq]; simp [decRound]
  · exact le_of_lt (decRound_pos v hlt)

theorem decRound_zero : decRound 0 = 0 := by simp [decRound]

theorem decRound_div_pow (n : ℕ) (k : ℕ) (hn : n < 10 ^ 28) :
    decRound ((n : ℚ) / 10 ^ k) = (n : ℚ) / 10 ^ k := by
  apply decRound_eq_self _ (n : ℤ) (-(k : ℤ)) (by simpa using hn)
  rw [zpow_neg, zpow_natCast, div_eq_mul_inv]
  norm_cast

theorem decRound_intCast (j : ℤ) (hj : j.natAbs < 10 ^ 28) : decRound (j : ℚ) = j := by
  have := decRound_exact j 0 hj
  simpa using this

/-- Decimal values of the form `n / 10^k` with coefficient below `10^28`:
closed under the subtractions the FIFO loop performs, and always returned
exactly by the context rounding. -/
def Safe (k : ℕ) (q : ℚ) : Prop := ∃ n : ℕ, n < 10 ^ 28 ∧ q = (n : ℚ) / 10 ^ k

theorem Safe.nonneg {k : ℕ} {q : ℚ} (h : Safe k q) : 0 ≤ q := by
  obtain ⟨n, _, rfl⟩ := h
  positivity

theorem Safe.decRound_self {k : ℕ} {q : ℚ} (h : Safe k q) : decRound q = q := by
  obtain ⟨n, hn, rfl⟩ := h
  exact decRound_div_pow n k hn

theorem Safe.sub_safe {k : ℕ} {x y : ℚ} (hx : Safe k x) (hy : Safe k y) (hle : y ≤ x) :
    Safe k (x - y) := by
  obtain ⟨n, hn, rfl⟩ := hx
  obtain ⟨m, hm, rfl⟩ := hy
  have h10 : (0 : ℚ) < 10 ^ k := by positivity
  have hmn : m ≤ n := by
    rw [div_le_div_iff₀ h10 h10] at hle
    have := le_of_mul_le_mul_right hle h10
    exact_mod_cast this
  refine ⟨n - m, by omega, ?_⟩
  rw [div_sub_div_same]
  congr 1
  have : ((n - m : ℕ) : ℚ) = (n : ℚ) - (m : ℚ) := by
    push_cast [Nat.cast_sub hmn]
    ring
  rw [this]

theorem dSub_of_safe {k : ℕ} {x y : ℚ} (hx : Safe k x) (hy : Safe k y) (hle : y ≤ x) :
    dSub x y = x - y := by
  rw [dSub]
  exact (hx.sub_safe hy hle).decRound_self

/-- The 29-nines subtraction that the default context rounds away:
`Decimal('1E+29') - Decimal('1')` is `1E+29` again. -/
theorem dSub_pow29_one : dSub ((10 : ℚ) ^ 29) 1 = (10 : ℚ) ^ 29 := by
  have hv : (0 : ℚ) < (10 : ℚ) ^ 29 - 1 := by norm_num
  have h1 : (10 : ℚ) ^ (28 : ℤ) ≤ (10 : ℚ) ^ 29 - 1 := by
    rw [show ((28 : ℤ)) = ((28 : ℕ) : ℤ) by norm_num, zpow_natCast]
    norm_num
  have h2 : (10 : ℚ) ^ 29 - 1 < (10 : ℚ) ^ ((28 : ℤ) + 1) := by
    rw [show ((28 : ℤ) + 1) = ((29 : ℕ) : ℤ) by norm_num, zpow_natCast]
    norm_num
  have hmain := decRound_eq_of_bounds ((10 : ℚ) ^ 29 - 1) 28 hv h1 h2
  have hx : ((10 : ℚ) ^ 29 - 1) * (10 : ℚ) ^ ((27 : ℤ) - 28) = ((10 : ℚ) ^ 29 - 1) / 10 := by
    rw [show ((27 : ℤ) - 28) = (-1 : ℤ) by norm_num, zpow_neg_one, div_eq_mul_inv]
  have hfl : ⌊((10 : ℚ) ^ 29 - 1) / 10⌋ = (10 ^ 28 - 1 : ℤ) := by
    rw [Int.floor_eq_iff]
    constructor
    · push_cast
      norm_num
    · push_cast
      norm_num
  have hrhe : roundHalfEven (((10 : ℚ) ^ 29 - 1) / 10) = 10 ^ 28 := by
    rw [roundHalfEven, hfl]
    rw [if_neg (by push_cast; norm_num), if_pos (by push_cast; norm_num)]
    norm_num
  rw [dSub, hmain, hx, hrhe]
  rw [show ((28 : ℤ) - 27) = (1 : ℤ) by norm_num, zpow_one]
  push_cast
  ring

/-- `Decimal(1) / Decimal(3)`: the quotient is rounded to 28 threes. -/
theorem dDiv_one_three :
    dDiv 1 3 = ((3333333333333333333333333333 : ℚ)) / 10 ^ 28 := by
  have hq : ((1 : ℚ) / 3 : ℚ) = 1 / 3 := rfl
  have hv : (0 : ℚ) < (1 : ℚ) / 3 := by norm_num
  have h1 : (10 : ℚ) ^ (-1 : ℤ) ≤ (1 : ℚ) / 3 := by
    rw [zpow_neg_one]
    norm_num
  have h2 : (1 : ℚ) / 3 < (10 : ℚ) ^ ((-1 : ℤ) + 1) := by
    norm_num
  have hmain := decRound_eq_of_bounds ((1 : ℚ) / 3) (-1) hv h1 h2
  have hx : ((1 : ℚ) / 3) * (10 : ℚ) ^ ((27 : ℤ) - -1) = (10 : ℚ) ^ 28 / 3 := by
    rw [show ((27 : ℤ) - -1) = ((28 : ℕ) : ℤ) by norm_num, zpow_natCast]
    ring
  have hfl : ⌊(10 : ℚ) ^ 28 / 3⌋ = (3333333333333333333333333333 : ℤ) := by
    rw [Int.floor_eq_iff]
    constructor
    · push_cast
      norm_num
    · push_cast
      norm_num
  have hrhe : roundHalfEven ((10 : ℚ) ^ 28 / 3) = 3333333333333333333333333333 := by
    rw [roundHalfEven, hfl]
    rw [if_pos (by push_cast; norm_num)]
  rw [dDiv, hmain, hx, hrhe]
  rw [show ((-1 : ℤ) - 27) = -((28 : ℕ) : ℤ) by norm_num, zpow_neg, zpow_natCast]
  rw [div_eq_mul_inv]
  push_cast
  ring

/-! ### Association-list (dict) lemmas -/

theorem qFind_qSet_self (qs : Queues) (a : String) (l : List Lot) :
    qFind (qSet qs a l) a = some l := by
  induction qs with
  | nil => simp [qFind, qSet]
  | cons hd tl ih =>
      obtain ⟨b, lb⟩ := hd
      by_cases hba : b = a
      · subst hba
        simp [qFind, qSet]
      · simp [qFind, qSet, hba, ih]

theorem qFind_qSet_ne (qs : Queues) (a b : String) (l : List Lot) (h : a ≠ b) :
    qFind (qSet qs a l) b = qFind qs b := by
  induction qs with
  | nil => simp [qFind, qSet, h]
  | cons hd tl ih =>
      obtain ⟨c, lc⟩ := hd
      by_cases hca : c = a
      · subst hca
        simp [qFind, qSet, h]
      · simp only [qSet, if_neg hca, qFind]
        by_cases hcb : c = b
        · simp [hcb]
        · simp [hcb, ih]

theorem qSet_eq_of_qFind (qs : Queues) (a : String) (l : List Lot)
    (h : qFind qs a = some l) : qSet qs a l = qs := by
  induction qs with
  | nil => simp [qFind] at h
  | cons hd tl ih =>
      obtain ⟨c, lc⟩ := hd
      by_cases hca : c = a
      · subst hca
        have h' : lc = l := by simpa [qFind] using h
        subst h'
        simp [qSet]
      · simp only [qFind, if_neg hca] at h
        simp [qSet, hca, ih h]

/-! ### The FIFO loop: unfolding equations -/

theorem lotSum_nil : lotSum [] = 0 := rfl

theorem lotSum_cons (l : Lot) (q : List Lot) : lotSum (l :: q) = l.qty + lotSum q := by
  simp [lotSum]

theorem lotSum_nonneg {k : ℕ} (q : List Lot) (h : ∀ l ∈ q, Safe k l.qty) : 0 ≤ lotSum q := by
  induction q with
  | nil => simp [lotSum]
  | cons hd tl ih =>
      rw [lotSum_cons]
      have h1 : 0 ≤ hd.qty := (h hd (by simp)).nonneg
      have h2 : 0 ≤ lotSum tl := ih (fun l hl => h l (by simp [hl]))
      linarith

theorem sellLoop_nonpos (a : String) (d : ℤ) (p : ℚ) (queue : List Lot) (Q : ℚ)
    (h : ¬ 0 < Q) : sellLoop a d p queue Q = (queue, [], none) := by
  cases queue with
  | nil => rw [sellLoop, if_neg h]
  | cons lot rest => rw [sellLoop, if_neg h]

theorem sellLoop_nil (a : String) (d : ℤ) (p : ℚ) (Q : ℚ) (h : 0 < Q) :
    sellLoop a d p [] Q = ([], [], some PyErr.indexError) := by
  rw [sellLoop, if_pos h]

theorem sellLoop_split (a : String) (d : ℤ) (p : ℚ) (lot : Lot) (rest : List Lot) (Q : ℚ)
    (h : 0 < Q) (hlt : Q < lot.qty) :
    sellLoop a d p (lot :: rest) Q =
      (⟨lot.ts, dSub lot.qty Q, lot.cost⟩ :: rest,
        [mkTransactionRecord a Q lot.ts d (dMul Q p) (dMul Q lot.cost)], none) := by
  rw [sellLoop, if_pos h, if_pos hlt]

theorem sellLoop_pop (a : String) (d : ℤ) (p : ℚ) (lot : Lot) (rest : List Lot) (Q : ℚ)
    (h : 0 < Q) (hge : ¬ Q < lot.qty) :
    sellLoop a d p (lot :: rest) Q =
      ((sellLoop a d p rest (dSub Q lot.qty)).1,
        mkTransactionRecord a lot.qty lot.ts d (dMul lot.qty p) (dMul lot.qty lot.cost) ::
          (sellLoop a d p rest (dSub Q lot.qty)).2.1,
        (sellLoop a d p rest (dSub Q lot.qty)).2.2) := by
  rw [sellLoop, if_pos h, if_neg hge]

theorem triple_eq_parts {α β γ : Type} {a x : α} {b y : β} {c z : γ}
    (h : (a, b, c) = (x, y, z)) : a = x ∧ b = y ∧ c = z := by
  injection h with h1 h23
  injection h23 with h2 h3
  exact ⟨h1, h2, h3⟩

/-- A successful FIFO loop over safe quantities removes exactly the
requested quantity from the queue and preserves safety and positivity of
the remaining lots. -/
theorem sellLoop_ok_lotSum {k : ℕ} (a : String) (d : ℤ) (p : ℚ) :
    ∀ (queue : List Lot) (Q : ℚ) (q2 : List Lot) (gains : List TransactionRecord),
      Safe k Q → (∀ l ∈ queue, Safe k l.qty) → 0 < Q →
      sellLoop a d p queue Q = (q2, gains, none) →
      lotSum q2 = lotSum queue - Q ∧ (∀ l ∈ q2, Safe k l.qty) ∧
        ((∀ l ∈ queue, 0 < l.qty) → ∀ l ∈ q2, 0 < l.qty) := by
  intro queue
  induction queue with
  | nil =>
      intro Q q2 gains _ _ hQ0 heq
      rw [sellLoop_nil a d p Q hQ0] at heq
      exact absurd (congrArg (fun t => t.2.2) heq) (by simp)
  | cons lot rest ih =>
      intro Q q2 gains hQ hsafe hQ0 heq
      have hlot : Safe k lot.qty := hsafe lot (by simp)
      have hrest : ∀ l ∈ rest, Safe k l.qty := fun l hl => hsafe l (by simp [hl])
      by_cases hlt : Q < lot.qty
      · rw [sellLoop_split a d p lot rest Q hQ0 hlt] at heq
        obtain ⟨h1, h2, -⟩ := triple_eq_parts heq
        have hsub : dSub lot.qty Q = lot.qty - Q := dSub_of_safe hlot hQ (le_of_lt hlt)
        constructor
        · rw [← h1, lotSum_cons, lotSum_cons, hsub]
          ring
        constructor
        · intro l hl
          rw [← h1] at hl
          rcases List.mem_cons.mp hl with hl | hl
          · subst hl
            simpa [hsub] using hlot.sub_safe hQ (le_of_lt hlt)
          · exact hrest l hl
        · intro hpos l hl
          rw [← h1] at hl
          rcases List.mem_cons.mp hl with hl | hl
          · subst hl
            simp only [hsub]
            linarith [hlt]
          · exact hpos l (by simp [hl])
      · rw [sellLoop_pop a d p lot rest Q hQ0 hlt] at heq
        have hle : lot.qty ≤ Q := le_of_not_lt hlt
        have hsub : dSub Q lot.qty = Q - lot.qty := dSub_of_safe hQ hlot hle
        have hQ' : Safe k (Q - lot.qty) := hQ.sub_safe hlot hle
        rcases eq_or_lt_of_le hQ'.nonneg with hz | hpos'
        · -- the head lot exactly exhausts the request
          have hrec : sellLoop a d p rest (dSub Q lot.qty) = (rest, [], none) := by
            apply sellLoop_nonpos
            rw [hsub, ← hz]
            exact lt_irrefl 0
          rw [hrec] at heq
          obtain ⟨h1, -, -⟩ := triple_eq_parts heq
          refine ⟨?_, ?_, ?_⟩
          · rw [← h1, lotSum_cons]
            linarith [hz]
          · intro l hl
            rw [← h1] at hl
            exact hrest l hl
          · intro hpos l hl
            rw [← h1] at hl
            exact hpos l (by simp [hl])
        · rcases hrec : sellLoop a d p rest (dSub Q lot.qty) with ⟨q2', gains', e'⟩
          rw [hrec] at heq
          obtain ⟨h1, h2, h3⟩ := triple_eq_parts heq
          subst h3
          obtain ⟨hsum, hsafe2, hpos2⟩ :=
            ih (dSub Q lot.qty) q2' gains' (hsub ▸ hQ') hrest (hsub ▸ hpos') hrec
          refine ⟨?_, ?_, ?_⟩
          · rw [← h1, hsum, hsub, lotSum_cons]
            ring
          · intro l hl
            rw [← h1] at hl
            exact hsafe2 l hl
          · intro hpos l hl
            rw [← h1] at hl
            exact hpos2 (fun l2 hl2 => hpos l2 (by simp [hl2])) l hl

/-- With safe, positive lots totalling strictly less than the (safe)
requested quantity, the loop consumes every lot and then raises
`IndexError`, leaving the queue empty. -/
theorem sellLoop_insufficient {k : ℕ} (a : String) (d : ℤ) (p : ℚ) :
    ∀ (queue : List Lot) (Q : ℚ),
      Safe k Q → (∀ l ∈ queue, Safe k l.qty) → (∀ l ∈ queue, 0 < l.qty) → 0 < Q →
      lotSum queue < Q →
      (sellLoop a d p queue Q).1 = [] ∧
        (sellLoop a d p queue Q).2.2 = some PyErr.indexError := by
  intro queue
  induction queue with
  | nil =>
      intro Q _ _ _ hQ0 _
      rw [sellLoop_nil a d p Q hQ0]
      exact ⟨rfl, rfl⟩
  | cons lot rest ih =>
      intro Q hQ hsafe hpos hQ0 hlt
      have hlot : Safe k lot.qty := hsafe lot (by simp)
      have hrest : ∀ l ∈ rest, Safe k l.qty := fun l hl => hsafe l (by simp [hl])
      have hrpos : ∀ l ∈ rest, 0 < l.qty := fun l hl => hpos l (by simp [hl])
      have hrest_nonneg : 0 ≤ lotSum rest := lotSum_nonneg rest hrest
      have hheadlt : lot.qty < Q := by
        rw [lotSum_cons] at hlt
        linarith
      have hnotsplit : ¬ Q < lot.qty := not_lt.mpr (le_of_lt hheadlt)
      rw [sellLoop_pop a d p lot rest Q hQ0 hnotsplit]
      have hsub : dSub Q lot.qty = Q - lot.qty := dSub_of_safe hQ hlot (le_of_lt hheadlt)
      have hQ' : Safe k (Q - lot.qty) := hQ.sub_safe hlot (le_of_lt hheadlt)
      have hQ0' : 0 < Q - lot.qty := by linarith
      have hlt' : lotSum rest < Q - lot.qty := by
        rw [lotSum_cons] at hlt
        linarith
      have := ih (dSub Q lot.qty) (hsub ▸ hQ') hrest hrpos (hsub ▸ hQ0') (hsub ▸ hlt')
      exact this

/-- The FIFO sufficiency lemma: with safe quantities and enough open lots,
the loop succeeds, the fragments sum to exactly the request, each fragment
is drawn from the corresponding lot from the front of the queue (never more
than its remaining quantity), and every fragment except possibly the last
consumes its lot entirely. -/
theorem sellLoop_sufficient {k : ℕ} (P : ℚ → Prop) (a : String) (d : ℤ) (p : ℚ)
    (hPsafe : ∀ x, P x → Safe k x)
    (hPsub : ∀ x y, P x → P y → y ≤ x → P (x - y)) :
    ∀ (queue : List Lot) (Q : ℚ),
      P Q → (∀ l ∈ queue, P l.qty) → 0 < Q → Q ≤ lotSum queue →
      ∃ q2 gains, sellLoop a d p queue Q = (q2, gains, none) ∧
        (gains.map TransactionRecord.quantity).sum = Q ∧
        gains.length ≤ queue.length ∧
        (∀ pr ∈ gains.zip queue, pr.1.acq_date = pr.2.ts ∧ pr.1.quantity ≤ pr.2.qty ∧
          P pr.1.quantity ∧
          pr.1.basis = dMul pr.1.quantity pr.2.cost ∧
          pr.1.proceeds = dMul pr.1.quantity p) ∧
        (∀ i g l, i + 1 < gains.length → gains[i]? = some g → queue[i]? = some l →
          g.quantity = l.qty) := by
  intro queue
  induction queue with
  | nil =>
      intro Q _ _ hQ0 hle
      rw [lotSum_nil] at hle
      exact absurd (lt_of_lt_of_le hQ0 hle) (lt_irrefl 0)
  | cons lot rest ih =>
      intro Q hPQ hsafe hQ0 hle
      have hQ : Safe k Q := hPsafe Q hPQ
      have hlot : Safe k lot.qty := hPsafe lot.qty (hsafe lot (by simp))
      have hPlot : P lot.qty := hsafe lot (by simp)
      have hrest : ∀ l ∈ rest, P l.qty := fun l hl => hsafe l (by simp [hl])
      by_cases hlt : Q < lot.qty
      · refine ⟨⟨lot.ts, dSub lot.qty Q, lot.cost⟩ :: rest,
          [mkTransactionRecord a Q lot.ts d (dMul Q p) (dMul Q lot.cost)],
          sellLoop_split a d p lot rest Q hQ0 hlt, ?_, ?_, ?_, ?_⟩
        · simp [mkTransactionRecord]
        · simp
        · intro pr hpr
          simp only [List.zip_cons_cons, List.zip_nil_left, List.mem_singleton] at hpr
          subst hpr
          exact ⟨rfl, le_of_lt hlt, hPQ, rfl, rfl⟩
        · intro i g l hi _ _
          simp at hi
      · have hle' : lot.qty ≤ Q := le_of_not_lt hlt
        have hsub : dSub Q lot.qty = Q - lot.qty := dSub_of_safe hQ hlot hle'
        have hPQ' : P (Q - lot.qty) := hPsub Q lot.qty hPQ hPlot hle'
        have hQ' : Safe k (Q - lot.qty) := hPsafe _ hPQ'
        have heqn := sellLoop_pop a d p lot rest Q hQ0 hlt
        rw [hsub] at heqn
        rcases eq_or_lt_of_le hQ'.nonneg with hz | hpos'
        · have hrec : sellLoop a d p rest (Q - lot.qty) = (rest, [], none) := by
            apply sellLoop_nonpos
            rw [← hz]
            exact lt_irrefl 0
          rw [hrec] at heqn
          refine ⟨rest,
            [mkTransactionRecord a lot.qty lot.ts d (dMul lot.qty p) (dMul lot.qty lot.cost)],
            heqn, ?_, ?_, ?_, ?_⟩
          · simp [mkTransactionRecord]
            linarith [hz]
          · simp
          · intro pr hpr
            simp only [List.zip_cons_cons, List.zip_nil_left, List.mem_singleton] at hpr
            subst hpr
            exact ⟨rfl, le_refl _, hPlot, rfl, rfl⟩
          · intro i g l hi _ _
            simp at hi
        · have hlerest : Q - lot.qty ≤ lotSum rest := by
            rw [lotSum_cons] at hle
            linarith
          obtain ⟨q2', gains', heq', hsum', hlen', hzip', hlast'⟩ :=
            ih (Q - lot.qty) hPQ' hrest hpos' hlerest
          rw [heq'] at heqn
          refine ⟨q2',
            mkTransactionRecord a lot.qty lot.ts d (dMul lot.qty p) (dMul lot.qty lot.cost)
              :: gains', heqn, ?_, ?_, ?_, ?_⟩
          · simp only [List.map_cons, List.sum_cons, hsum', mkTransactionRecord]
            ring
          · simpa using Nat.succ_le_succ hlen'
          · intro pr hpr
            simp only [List.zip_cons_cons, List.mem_cons] at hpr
            rcases hpr with hpr | hpr
            · subst hpr
              exact ⟨rfl, le_refl _, hPlot, rfl, rfl⟩
            · exact hzip' pr hpr
          · intro i g l hi hg hl
            cases i with
            | zero =>
                simp only [List.getElem?_cons_zero, Option.some.injEq] at hg hl
                subst hg
                subst hl
                rfl
            | succ j =>
                simp only [List.getElem?_cons_succ] at hg hl
                simp only [List.length_cons] at hi
                exact hlast' j g l (by omega) hg hl

/-- Every record the loop emits (even before an exception) is built from
some lot of the queue: fragment proceeds use the single unit sale price,
fragment basis uses that lot's unit cost, and the gain is their Decimal
difference. -/
theorem sellLoop_mem (a : String) (d : ℤ) (p : ℚ) :
    ∀ (queue : List Lot) (Q : ℚ) (q2 : List Lot) (gains : List TransactionRecord)
      (e : Option PyErr),
      sellLoop a d p queue Q = (q2, gains, e) →
      ∀ r ∈ gains, ∃ l, l ∈ queue ∧
        r.asset = a ∧ r.sell_date = d ∧ r.acq_date = l.ts ∧
        r.proceeds = dMul r.quantity p ∧ r.basis = dMul r.quantity l.cost ∧
        r.gain = dSub r.proceeds r.basis := by
  intro queue
  induction queue with
  | nil =>
      intro Q q2 gains e heq r hr
      by_cases hQ0 : 0 < Q
      · rw [sellLoop_nil a d p Q hQ0] at heq
        obtain ⟨-, h2, -⟩ := triple_eq_parts heq
        rw [← h2] at hr
        simp at hr
      · rw [sellLoop_nonpos a d p [] Q hQ0] at heq
        obtain ⟨-, h2, -⟩ := triple_eq_parts heq
        rw [← h2] at hr
        simp at hr
  | cons lot rest ih =>
      intro Q q2 gains e heq r hr
      by_cases hQ0 : 0 < Q
      · by_cases hlt : Q < lot.qty
        · rw [sellLoop_split a d p lot rest Q hQ0 hlt] at heq
          obtain ⟨-, h2, -⟩ := triple_eq_parts heq
          rw [← h2] at hr
          simp only [List.mem_singleton] at hr
          subst hr
          exact ⟨lot, by simp, rfl, rfl, rfl, rfl, rfl, rfl⟩
        · rw [sellLoop_pop a d p lot rest Q hQ0 hlt] at heq
          obtain ⟨-, h2, -⟩ := triple_eq_parts heq
          rw [← h2] at hr
          rcases List.mem_cons.mp hr with hr | hr
          · subst hr
            exact ⟨lot, by simp, rfl, rfl, rfl, rfl, rfl, rfl⟩
          · obtain ⟨l, hl, hprops⟩ :=
              ih (dSub Q lot.qty) _ _ _ rfl r hr
            exact ⟨l, by simp [hl], hprops⟩
      · rw [sellLoop_nonpos a d p (lot :: rest) Q hQ0] at heq
        obtain ⟨-, h2, -⟩ := triple_eq_parts heq
        rw [← h2] at hr
        simp at hr

/-! ### Handler-level lemmas -/

theorem qSet_qSet (qs : Queues) (a : String) (l1 l2 : List Lot) :
    qSet (qSet qs a l1) a l2 = qSet qs a l2 := by
  induction qs with
  | nil => simp [qSet]
  | cons hd tl ih =>
      obtain ⟨c, lc⟩ := hd
      by_cases hca : c = a
      · subst hca
        simp [qSet]
      · simp [qSet, hca, ih]

/-- Successful acquisition for an already-uppercase symbol: append one lot
with unit cost `total / quantity` to the symbol's queue. -/
theorem on_buy_upper (st : PState) (ts : ℤ) (a : String) (q t : ℚ)
    (hup : pyUpper a = a) (hq : q ≠ 0) :
    on_buy st ts a q t =
      ({ st with queues := qSet st.queues a (queueOf st a ++ [⟨ts, q, dDiv t q⟩]) }, none) := by
  unfold on_buy
  rw [hup]
  by_cases hfound : (qFind st.queues a).isSome
  · obtain ⟨cur, hcur⟩ := Option.isSome_iff_exists.mp hfound
    simp only [hcur, Option.isSome_some, if_true, queueOf, Option.getD_some, if_neg hq]
  · rw [Option.not_isSome_iff_eq_none] at hfound
    simp only [hfound, Option.isSome_none, Bool.false_eq_true, if_false, qFind_qSet_self,
      if_neg hq, queueOf, Option.getD_none, qSet_qSet]

theorem on_buy_collections (st : PState) (ts : ℤ) (a : String) (q t : ℚ) :
    ((on_buy st ts a q t).1).total_profits = st.total_profits ∧
      ((on_buy st ts a q t).1).other_income = st.other_income := by
  simp only [on_buy]
  split
  · exact ⟨rfl, rfl⟩
  · split
    · exact ⟨rfl, rfl⟩
    · exact ⟨rfl, rfl⟩

theorem on_buy_queues_ne (st : PState) (ts : ℤ) (a : String) (q t : ℚ) (B : String)
    (h1 : a ≠ B) (h2 : pyUpper a ≠ B) :
    qFind ((on_buy st ts a q t).1).queues B = qFind st.queues B := by
  have hqs1 : qFind (if (qFind st.queues a).isSome then st.queues
      else qSet st.queues a []) B = qFind st.queues B := by
    by_cases hfound : (qFind st.queues a).isSome
    · rw [if_pos hfound]
    · rw [if_neg hfound, qFind_qSet_ne st.queues a B [] h1]
  simp only [on_buy]
  split
  · exact hqs1
  · split
    · exact hqs1
    · rw [qFind_qSet_ne _ (pyUpper a) B _ h2]
      exact hqs1

theorem on_sell_collections (st : PState) (ts : ℤ) (a : String) (q t : ℚ) :
    ((on_sell st ts a q t).1).total_profits = st.total_profits ∧
      ((on_sell st ts a q t).1).other_income = st.other_income := by
  simp only [on_sell]
  split
  · exact ⟨rfl, rfl⟩
  · split
    · exact ⟨rfl, rfl⟩
    · split
      · exact ⟨rfl, rfl⟩
      · exact ⟨rfl, rfl⟩

theorem on_sell_queues_ne (st : PState) (ts : ℤ) (a : String) (q t : ℚ) (B : String)
    (h1 : a ≠ B) :
    qFind ((on_sell st ts a q t).1).queues B = qFind st.queues B := by
  simp only [on_sell]
  split
  · rfl
  · split
    · rfl
    · split
      · exact qFind_qSet_ne st.queues a B _ h1
      · exact qFind_qSet_ne st.queues a B _ h1

/-- Characterization of a successful disposal. -/
theorem on_sell_ok (st : PState) (ts : ℤ) (a : String) (Q t : ℚ) (queue q2 : List Lot)
    (gains : List TransactionRecord) (hQ0 : Q ≠ 0)
    (hq : qFind st.queues a = some queue)
    (hloop : sellLoop a ts (dDiv t Q) queue Q = (q2, gains, none)) :
    on_sell st ts a Q t = ({ st with queues := qSet st.queues a q2 }, Except.ok gains) := by
  simp only [on_sell, if_neg hQ0, hq, hloop]

/-- Characterization of a disposal ending in an exception from the loop. -/
theorem on_sell_err (st : PState) (ts : ℤ) (a : String) (Q t : ℚ) (queue q2 : List Lot)
    (gains : List TransactionRecord) (e : PyErr) (hQ0 : Q ≠ 0)
    (hq : qFind st.queues a = some queue)
    (hloop : sellLoop a ts (dDiv t Q) queue Q = (q2, gains, some e)) :
    on_sell st ts a Q t = ({ st with queues := qSet st.queues a q2 }, Except.error e) := by
  simp only [on_sell, if_neg hQ0, hq, hloop]

theorem on_sell_keyError (st : PState) (ts : ℤ) (a : String) (Q t : ℚ) (hQ0 : Q ≠ 0)
    (hq : qFind st.queues a = none) :
    on_sell st ts a Q t = (st, Except.error (PyErr.keyError a)) := by
  simp only [on_sell, if_neg hQ0, hq]

/-- Inversion of a successful disposal: the quantity was nonzero, the asset
had a queue, the loop succeeded, and the state differs only in that queue. -/
theorem on_sell_ok_inv (st : PState) (ts : ℤ) (a : String) (Q t : ℚ) (st' : PState)
    (gains : List TransactionRecord)
    (h : on_sell st ts a Q t = (st', Except.ok gains)) :
    Q ≠ 0 ∧ ∃ queue q2, qFind st.queues a = some queue ∧
      sellLoop a ts (dDiv t Q) queue Q = (q2, gains, none) ∧
      st' = { st with queues := qSet st.queues a q2 } := by
  by_cases hQ0 : Q = 0
  · simp only [on_sell, if_pos hQ0] at h
    have := congrArg Prod.snd h
    simp at this
  · refine ⟨hQ0, ?_⟩
    rcases hf : qFind st.queues a with - | queue
    · rw [on_sell_keyError st ts a Q t hQ0 hf] at h
      have := congrArg Prod.snd h
      simp at this
    · rcases hloop : sellLoop a ts (dDiv t Q) queue Q with ⟨q2, gains2, e2⟩
      cases e2 with
      | none =>
          rw [on_sell_ok st ts a Q t queue q2 gains2 hQ0 hf hloop] at h
          have h1 := congrArg Prod.fst h
          have h2 := congrArg Prod.snd h
          simp only [Except.ok.injEq] at h2
          refine ⟨queue, q2, rfl, ?_, ?_⟩
          · rw [hloop, h2]
          · exact h1.symm
      | some e =>
          rw [on_sell_err st ts a Q t queue q2 gains2 e hQ0 hf hloop] at h
          have := congrArg Prod.snd h
          simp at this

/-- Lots found in the queues structure. -/
def QueuesOK (k : ℕ) (qs : Queues) : Prop :=
  ∀ e ∈ qs, ∀ l ∈ e.2, Safe k l.qty ∧ 0 < l.qty

theorem qFind_mem (qs : Queues) (a : String) (q : List Lot) (h : qFind qs a = some q) :
    (a, q) ∈ qs := by
  induction qs with
  | nil => simp [qFind] at h
  | cons hd tl ih =>
      obtain ⟨c, lc⟩ := hd
      by_cases hca : c = a
      · subst hca
        have h' : lc = q := by simpa [qFind] using h
        subst h'
        simp
      · simp only [qFind, if_neg hca] at h
        simp [ih h]

theorem QueuesOK.queueOf {k : ℕ} {st : PState} (h : QueuesOK k st.queues) (a : String) :
    ∀ l ∈ ProfitCalc.queueOf st a, Safe k l.qty ∧ 0 < l.qty := by
  intro l hl
  rcases hf : qFind st.queues a with - | q
  · rw [ProfitCalc.queueOf, hf] at hl
    simp at hl
  · rw [ProfitCalc.queueOf, hf] at hl
    exact h (a, q) (qFind_mem st.queues a q hf) l hl

theorem QueuesOK.qSet {k : ℕ} {qs : Queues} (h : QueuesOK k qs) (a : String)
    (newl : List Lot) (hnew : ∀ l ∈ newl, Safe k l.qty ∧ 0 < l.qty) :
    QueuesOK k (ProfitCalc.qSet qs a newl) := by
  induction qs with
  | nil =>
      intro e he l hl
      simp only [ProfitCalc.qSet, List.mem_singleton] at he
      subst he
      exact hnew l hl
  | cons hd tl ih =>
      obtain ⟨c, lc⟩ := hd
      intro e he l hl
      by_cases hca : c = a
      · subst hca
        have heq : ProfitCalc.qSet ((c, lc) :: tl) c newl = (c, newl) :: tl := by
          simp [ProfitCalc.qSet]
        rw [heq] at he
        rcases List.mem_cons.mp he with he' | he'
        · subst he'
          exact hnew l hl
        · exact h e (by simp [he']) l hl
      · have heq : ProfitCalc.qSet ((c, lc) :: tl) a newl =
            (c, lc) :: ProfitCalc.qSet tl a newl := by
          simp [ProfitCalc.qSet, hca]
        rw [heq] at he
        rcases List.mem_cons.mp he with he' | he'
        · subst he'
          exact h (c, lc) (by simp) l hl
        · exact ih (fun e2 he2 l2 hl2 => h e2 (by simp [he2]) l2 hl2) e he' l hl

theorem lotSum_append (xs ys : List Lot) : lotSum (xs ++ ys) = lotSum xs + lotSum ys := by
  simp [lotSum]

/-- Preconditions on one operation: positive, safe quantity and an
already-uppercase symbol. -/
def OpOK (k : ℕ) : Op → Prop
  | Op.buy _ a q _ => 0 < q ∧ Safe k q ∧ pyUpper a = a
  | Op.sell _ a q _ => 0 < q ∧ Safe k q ∧ pyUpper a = a

/-- The quantity an operation contributes to one asset's queue. -/
def opDelta (A : String) : Op → ℚ
  | Op.buy _ a q _ => if a = A then q else 0
  | Op.sell _ a q _ => if a = A then -q else 0

/-- The per-operation quantity delta: a successful step adds the acquired
quantity to the operation's asset queue or removes the disposed one, keeps
every queue well-formed, and leaves all other assets' queues untouched. -/
theorem step_delta {k : ℕ} (st st1 : PState) (op : Op)
    (hok : OpOK k op)
    (hq : QueuesOK k st.queues) (hstep : step st op = some st1) :
    QueuesOK k st1.queues ∧
    ∀ A, lotSum (queueOf st1 A) = lotSum (queueOf st A) + opDelta A op := by
  cases op with
  | buy ts a q t =>
      obtain ⟨hq0, hsafe, hup⟩ := hok
      have hbuy := on_buy_upper st ts a q t hup (ne_of_gt hq0)
      simp only [step, hbuy] at hstep
      have hst1 : st1 = { st with
          queues := qSet st.queues a (queueOf st a ++ [⟨ts, q, dDiv t q⟩]) } := by
        exact (Option.some.injEq .. ▸ hstep).symm
      subst hst1
      constructor
      · apply hq.qSet a
        intro l hl
        rcases List.mem_append.mp hl with hl | hl
        · exact hq.queueOf a l hl
        · simp only [List.mem_singleton] at hl
          subst hl
          exact ⟨hsafe, hq0⟩
      · intro A
        by_cases hA : a = A
        · subst hA
          simp only [queueOf, qFind_qSet_self, Option.getD_some, opDelta, eq_self_iff_true,
            if_true, lotSum_append, lotSum_cons, lotSum_nil]
          ring
        · simp only [queueOf, qFind_qSet_ne st.queues a A _ hA, opDelta, if_neg hA]
          ring
  | sell ts a q t =>
      obtain ⟨hq0, hsafe, hup⟩ := hok
      rcases hsell : on_sell st ts a q t with ⟨st2, res⟩
      cases res with
      | error e =>
          simp only [step, hsell] at hstep
          exact Option.noConfusion hstep
      | ok gains =>
          simp only [step, hsell] at hstep
          obtain ⟨hQ0, queue, q2, hf, hloop, hst2⟩ := on_sell_ok_inv st ts a q t st2 gains hsell
          have hst1 : st1 = { st2 with total_profits := st2.total_profits ++ gains } :=
            (Option.some.injEq .. ▸ hstep).symm
          have hqueue_ok : ∀ l ∈ queue, Safe k l.qty ∧ 0 < l.qty :=
            fun l hl => hq (a, queue) (qFind_mem st.queues a queue hf) l hl
          obtain ⟨hsum2, hsafe2, hpos2⟩ := sellLoop_ok_lotSum a ts (dDiv t q) queue q q2 gains
            hsafe (fun l hl => (hqueue_ok l hl).1) hq0 hloop
          have hpos2' : ∀ l ∈ q2, 0 < l.qty := hpos2 (fun l hl => (hqueue_ok l hl).2)
          constructor
          · rw [hst1, hst2]
            apply hq.qSet a
            intro l hl
            exact ⟨hsafe2 l hl, hpos2' l hl⟩
          · intro A
            by_cases hA : a = A
            · subst hA
              rw [hst1, hst2]
              simp only [queueOf, qFind_qSet_self, Option.getD_some, opDelta, eq_self_iff_true,
                if_true]
              rw [hsum2, hf]
              simp only [Option.getD_some]
              ring
            · rw [hst1, hst2]
              simp only [queueOf, qFind_qSet_ne st.queues a A _ hA, opDelta, if_neg hA]
              ring

theorem opsDelta_eq (A : String) (ops : List Op) :
    (ops.map (opDelta A)).sum = acquiredSum A ops - disposedSum A ops := by
  induction ops with
  | nil => simp [acquiredSum, disposedSum]
  | cons op rest ih =>
      cases op with
      | buy ts a q t =>
          simp only [List.map_cons, List.sum_cons, ih, opDelta, acquiredSum, disposedSum]
          ring
      | sell ts a q t =>
          simp only [List.map_cons, List.sum_cons, ih, opDelta, acquiredSum, disposedSum]
          by_cases hA : a = A
          · simp [hA]
            ring
          · simp [hA]

/-- Running a sequence of successful, safe, positive operations changes each
asset's open-lot total by exactly its acquired-minus-disposed quantity, and
every surviving lot stays strictly positive (and safe). -/
theorem runOps_conservation {k : ℕ} :
    ∀ (ops : List Op) (st0 st : PState),
      (∀ op ∈ ops, OpOK k op) → QueuesOK k st0.queues → runOps st0 ops = some st →
      QueuesOK k st.queues ∧
      ∀ A, lotSum (queueOf st A) = lotSum (queueOf st0 A) + (ops.map (opDelta A)).sum := by
  intro ops
  induction ops with
  | nil =>
      intro st0 st _ hq hrun
      have hst : st0 = st := by simpa [runOps] using hrun
      subst hst
      exact ⟨hq, fun A => by simp⟩
  | cons op rest ih =>
      intro st0 st hok hq hrun
      rcases hstep : step st0 op with - | st1
      · simp only [runOps, hstep] at hrun
        exact Option.noConfusion hrun
      · simp only [runOps, hstep] at hrun
        obtain ⟨hq1, hdelta⟩ := step_delta st0 st1 op (hok op (by simp)) hq hstep
        obtain ⟨hq2, hsum⟩ := ih st1 st (fun o ho => hok o (by simp [ho])) hq1 hrun
        refine ⟨hq2, fun A => ?_⟩
        rw [hsum, hdelta A]
        simp only [List.map_cons, List.sum_cons]
        ring

/-- Decimal values of the form `n / 10^k` with a coefficient small enough
(`n < 10^14`) that any product of two of them still fits in the 28-digit
context exactly. -/
def SafeSmall (k : ℕ) (q : ℚ) : Prop := ∃ n : ℕ, n < 10 ^ 14 ∧ q = (n : ℚ) / 10 ^ k

theorem SafeSmall.safe {k : ℕ} {q : ℚ} (h : SafeSmall k q) : Safe k q := by
  obtain ⟨n, hn, rfl⟩ := h
  exact ⟨n, by omega, rfl⟩

theorem SafeSmall.sub_small {k : ℕ} {x y : ℚ} (hx : SafeSmall k x) (hy : SafeSmall k y)
    (hle : y ≤ x) : SafeSmall k (x - y) := by
  obtain ⟨n, hn, rfl⟩ := hx
  obtain ⟨m, hm, rfl⟩ := hy
  have h10 : (0 : ℚ) < 10 ^ k := by positivity
  have hmn : m ≤ n := by
    rw [div_le_div_iff₀ h10 h10] at hle
    have := le_of_mul_le_mul_right hle h10
    exact_mod_cast this
  refine ⟨n - m, by omega, ?_⟩
  rw [div_sub_div_same]
  congr 1
  push_cast [Nat.cast_sub hmn]
  ring

/-- A product of two small safe values is computed exactly by the context. -/
theorem SafeSmall.dMul_exact {k : ℕ} {x y : ℚ} (hx : SafeSmall k x) (hy : SafeSmall k y) :
    dMul x y = x * y := by
  obtain ⟨n, hn, rfl⟩ := hx
  obtain ⟨m, hm, rfl⟩ := hy
  have hprod : (n : ℚ) / 10 ^ k * ((m : ℚ) / 10 ^ k) = ((n * m : ℕ) : ℚ) / 10 ^ (k + k) := by
    push_cast
    rw [pow_add]
    field_simp
  rw [dMul, hprod]
  apply decRound_div_pow
  nlinarith [hn, hm]

theorem zip_sums (gains : List TransactionRecord) (queue : List Lot) (p : ℚ)
    (hlen : gains.length ≤ queue.length)
    (h : ∀ pr ∈ gains.zip queue, pr.1.basis = pr.1.quantity * pr.2.cost ∧
      pr.1.proceeds = pr.1.quantity * p) :
    (gains.map TransactionRecord.basis).sum =
      ((gains.zip queue).map (fun pr => pr.1.quantity * pr.2.cost)).sum ∧
    (gains.map TransactionRecord.proceeds).sum =
      (gains.map TransactionRecord.quantity).sum * p := by
  induction gains generalizing queue with
  | nil => simp
  | cons g gs ih =>
      cases queue with
      | nil => simp at hlen
      | cons l ls =>
          have hg := h (g, l) (by simp)
          have hrest := ih ls (by simpa using hlen) (fun pr hpr => h pr (by simp [hpr]))
          simp only [List.zip_cons_cons, List.map_cons, List.sum_cons]
          constructor
          · rw [hg.1, hrest.1]
          · rw [hg.2, hrest.2]
            ring

theorem decRound_int_eval (x : ℚ) (j : ℤ) (hx : x = (j : ℚ)) (hj : j.natAbs < 10 ^ 28) :
    decRound x = x := by
  rw [hx]
  exact decRound_intCast j hj

/-! ### Concrete states used by counterexamples and witnesses -/

/-- Three units of BTC in one lot at unit cost 1. -/
def stBTC3 : PState := { queues := [("BTC", [⟨0, 3, 1⟩])], total_profits := [], other_income := [] }

/-- One open BTC lot of one unit. -/
def stBTC1 : PState := { queues := [("BTC", [⟨0, 1, 1⟩])], total_profits := [], other_income := [] }

/-- The simple-FIFO-split scenario ledger: 1 unit at 100 USD/unit (day 0),
2 units at 200 USD/unit (day 10). -/
def stSplit : PState :=
  { queues := [("BTC", [⟨0, 1, 100⟩, ⟨10, 2, 200⟩])], total_profits := [], other_income := [] }

/-- A small lot next to a huge one, for the 28-digit rounding overdraw. -/
def stBig : PState :=
  { queues := [("BTC", [⟨0, 1, 1⟩, ⟨1, 2 * 10 ^ 29, 1⟩])], total_profits := [],
    other_income := [] }

/-! ### C6 -/

/-- C6: the term classification of a `TransactionRecord` is a pure function
of the acquisition and disposal dates: two records with the same dates get
the same `islong` whatever their other fields; the result is `"long"`
exactly when strictly more than 364 days (52 weeks) elapsed, `"short"`
otherwise; a gap of exactly 52 weeks is short and one day more is long. -/
theorem C6_term_classification :
    (∀ a q sp ap a' q' sp' ap' (d1 d2 : ℤ),
      (mkTransactionRecord a q d1 d2 sp ap).islong =
        (mkTransactionRecord a' q' d1 d2 sp' ap').islong) ∧
    (∀ a q sp ap (d1 d2 : ℤ),
      ((mkTransactionRecord a q d1 d2 sp ap).getlong = "long" ↔ 364 < d2 - d1) ∧
      ((mkTransactionRecord a q d1 d2 sp ap).getlong = "short" ↔ ¬ 364 < d2 - d1)) ∧
    (∀ a q sp ap (d1 : ℤ),
      (mkTransactionRecord a q d1 (d1 + 364) sp ap).getlong = "short" ∧
      (mkTransactionRecord a q d1 (d1 + 365) sp ap).getlong = "long") := by
  have hcomp : ∀ a q sp ap (d1 d2 : ℤ), (mkTransactionRecord a q d1 d2 sp ap).getlong =
      if 364 < d2 - d1 then "long" else "short" := by
    intro a q sp ap d1 d2
    by_cases h : (364 : ℤ) < d2 - d1 <;>
      simp [mkTransactionRecord, TransactionRecord.getlong, h]
  refine ⟨?_, ?_, ?_⟩
  · intro a q sp ap a' q' sp' ap' d1 d2
    rfl
  · intro a q sp ap d1 d2
    constructor
    · constructor
      · intro hl
        by_contra h
        rw [hcomp, if_neg h] at hl
        exact absurd hl (by decide)
      · intro h
        rw [hcomp, if_pos h]
    · constructor
      · intro hs hcon
        rw [hcomp, if_pos hcon] at hs
        exact absurd hs (by decide)
      · intro h
        rw [hcomp, if_neg h]
  · intro a q sp ap d1
    constructor
    · rw [hcomp, if_neg (by omega)]
    · rw [hcomp, if_pos (by omega)]

/-! ### C9 -/

/-- C9: the code slip behind case normalization.  Acquiring one unit of the
unseen lowercase symbol `"btc"` creates the queue under the raw key
`"btc"`, then raises `KeyError "BTC"` from the upper-cased lookup instead
of appending a lot to a case-normalized queue: no queue ever receives the
lot, and a spurious empty `"btc"` queue is left behind. -/
theorem C9_case_normalization_bug :
    on_buy initState 0 "btc" 1 100 =
      ({ queues := [("btc", [])], total_profits := [], other_income := [] },
        some (PyErr.keyError "BTC")) ∧
    qFind (on_buy initState 0 "btc" 1 100).1.queues "BTC" = none ∧
    (on_buy initState 0 "BTC" 1 100).2 = none := by
  refine ⟨rfl, rfl, rfl⟩

/-! ### C10 -/

/-- C10 as stated is false: an acquire of the lowercase symbol `"btc"`
mutates the queue of the different symbol `"BTC"` (and creates an empty
`"btc"` queue). -/
theorem C10_counterexample :
    ("BTC" : String) ≠ "btc" ∧
    (on_buy stBTC1 1 "btc" 2 4).2 = none ∧
    queueOf (on_buy stBTC1 1 "btc" 2 4).1 "BTC" =
      [⟨0, 1, 1⟩, ⟨1, 2, dDiv 4 2⟩] ∧
    queueOf stBTC1 "BTC" = [⟨0, 1, 1⟩] ∧
    ([⟨0, 1, 1⟩, ⟨1, 2, dDiv 4 2⟩] : List Lot) ≠ [⟨0, 1, 1⟩] := by
  refine ⟨by decide, rfl, rfl, rfl, ?_⟩
  intro hcon
  have := congrArg List.length hcon
  simp at this

/-- C10 amended: a consume on asset `A` leaves every other asset's queue
unchanged; an acquire on `A` leaves every queue other than `A`'s and
`A.upper()`'s unchanged (for an already-uppercase symbol these coincide);
and a plain acquire never changes the realized-gains or income
collections. -/
theorem C10_frame :
    ∀ st ts a q t B,
      (a ≠ B → pyUpper a ≠ B →
        qFind ((on_buy st ts a q t).1).queues B = qFind st.queues B) ∧
      (a ≠ B → qFind ((on_sell st ts a q t).1).queues B = qFind st.queues B) ∧
      ((on_buy st ts a q t).1).total_profits = st.total_profits ∧
      ((on_buy st ts a q t).1).other_income = st.other_income := by
  intro st ts a q t B
  exact ⟨fun h1 h2 => on_buy_queues_ne st ts a q t B h1 h2,
    fun h1 => on_sell_queues_ne st ts a q t B h1,
    (on_buy_collections st ts a q t).1, (on_buy_collections st ts a q t).2⟩

/-- Witness for the amended C10 at a concrete input. -/
theorem C10_frame_witness :
    qFind ((on_buy stBTC1 0 "ETH" 1 1).1).queues "BTC" = qFind stBTC1.queues "BTC" ∧
    qFind ((on_sell stBTC1 0 "ETH" 1 1).1).queues "BTC" = qFind stBTC1.queues "BTC" ∧
    ((on_buy stBTC1 0 "ETH" 1 1).1).total_profits = stBTC1.total_profits ∧
    ((on_buy stBTC1 0 "ETH" 1 1).1).other_income = stBTC1.other_income := by
  obtain ⟨h1, h2, h3, h4⟩ := C10_frame stBTC1 0 "ETH" 1 1 "BTC"
  exact ⟨h1 (by decide) (by decide), h2 (by decide), h3, h4⟩

/-! ### C7 -/

/-- C7 as stated is false: no `InvalidQuantityError` exists.  A disposal of
a negative quantity raises nothing at all — it returns success with zero
gains — and an acquisition of a negative quantity succeeds and appends a
negative lot; a zero quantity raises `ZeroDivisionError` instead. -/
theorem C7_counterexample :
    on_sell stBTC3 1 "BTC" (-1) (-5) = (stBTC3, Except.ok []) ∧
    (on_buy stBTC3 0 "BTC" (-1) (-2)).2 = none ∧
    queueOf (on_buy stBTC3 0 "BTC" (-1) (-2)).1 "BTC" =
      [⟨0, 3, 1⟩, ⟨0, -1, dDiv (-2) (-1)⟩] ∧
    (on_sell stBTC3 1 "BTC" 0 5).2 = Except.error PyErr.zeroDivisionError ∧
    (on_buy stBTC3 0 "BTC" 0 5).2 = some PyErr.zeroDivisionError := by
  exact ⟨rfl, rfl, rfl, rfl, rfl⟩

/-- C7 amended: no `InvalidQuantityError` exists.  For an uppercase
symbol, a zero quantity makes both acquire and dispose raise
`ZeroDivisionError` from the unit-price division (a zero-quantity disposal
leaves the state untouched and yields no records).  A negative quantity is
never rejected as such: when the asset has a queue the disposal silently
returns zero records with the ledger untouched; when the asset was never
acquired the disposal still raises `KeyError` from the `queues[asset]`
lookup (the division having succeeded first), again with the ledger
untouched and no records; and the acquisition always succeeds, appending a
lot with negative quantity.  In no case is a `RealizedGain` produced. -/
theorem C7_invalid_quantity :
    ∀ st ts a (q t : ℚ), pyUpper a = a →
      ((on_sell st ts a 0 t).2 = Except.error PyErr.zeroDivisionError ∧
        (on_sell st ts a 0 t).1 = st) ∧
      (on_buy st ts a 0 t).2 = some PyErr.zeroDivisionError ∧
      (q < 0 →
        (on_sell st ts a q t).1 = st ∧
        (∀ queue, qFind st.queues a = some queue →
          (on_sell st ts a q t).2 = Except.ok []) ∧
        (qFind st.queues a = none →
          (on_sell st ts a q t).2 = Except.error (PyErr.keyError a)) ∧
        (on_buy st ts a q t).2 = none ∧
        queueOf (on_buy st ts a q t).1 a = queueOf st a ++ [⟨ts, q, dDiv t q⟩]) := by
  intro st ts a q t hup
  refine ⟨⟨?_, ?_⟩, ?_, ?_⟩
  · simp [on_sell]
  · simp [on_sell]
  · rw [on_buy]
    rw [hup]
    by_cases hfound : (qFind st.queues a).isSome
    · obtain ⟨cur, hcur⟩ := Option.isSome_iff_exists.mp hfound
      simp [hcur]
    · rw [Option.not_isSome_iff_eq_none] at hfound
      simp [hfound, qFind_qSet_self]
  · intro hq
    have hq0 : q ≠ 0 := ne_of_lt hq
    have hnopos : ¬ (0 : ℚ) < q := not_lt.mpr (le_of_lt hq)
    refine ⟨?_, ?_, ?_, ?_, ?_⟩
    · rcases hf : qFind st.queues a with - | queue
      · rw [on_sell_keyError st ts a q t hq0 hf]
      · rw [on_sell_ok st ts a q t queue queue [] hq0 hf
          (sellLoop_nonpos a ts (dDiv t q) queue q hnopos)]
        simp [qSet_eq_of_qFind st.queues a queue hf]
    · intro queue hf
      rw [on_sell_ok st ts a q t queue queue [] hq0 hf
        (sellLoop_nonpos a ts (dDiv t q) queue q hnopos)]
    · intro hf
      rw [on_sell_keyError st ts a q t hq0 hf]
    · rw [on_buy_upper st ts a q t hup hq0]
    · rw [on_buy_upper st ts a q t hup hq0]
      simp [queueOf, qFind_qSet_self]

/-- Witness for the amended C7 at concrete inputs, exercising both the
present-queue and the never-acquired branches for a negative quantity. -/
theorem C7_invalid_quantity_witness :
    ((on_sell stBTC3 1 "BTC" 0 7).2 = Except.error PyErr.zeroDivisionError ∧
      (on_sell stBTC3 1 "BTC" 0 7).1 = stBTC3) ∧
    (on_buy stBTC3 1 "BTC" 0 7).2 = some PyErr.zeroDivisionError ∧
    ((on_sell stBTC3 1 "BTC" (-1) 7).1 = stBTC3 ∧
      (∀ queue, qFind stBTC3.queues "BTC" = some queue →
        (on_sell stBTC3 1 "BTC" (-1) 7).2 = Except.ok []) ∧
      (on_buy stBTC3 1 "BTC" (-1) 7).2 = none ∧
      queueOf (on_buy stBTC3 1 "BTC" (-1) 7).1 "BTC" =
        queueOf stBTC3 "BTC" ++ [⟨1, -1, dDiv 7 (-1)⟩]) ∧
    (qFind initState.queues "ZZZ" = none →
      (on_sell initState 1 "ZZZ" (-1) 7).2 = Except.error (PyErr.keyError "ZZZ")) := by
  obtain ⟨h1, h2, h3⟩ := C7_invalid_quantity stBTC3 1 "BTC" (-1) 7 (by decide)
  obtain ⟨-, -, h4⟩ := C7_invalid_quantity initState 1 "ZZZ" (-1) 7 (by decide)
  obtain ⟨h3a, h3b, -, h3d, h3e⟩ := h3 (by norm_num)
  exact ⟨h1, h2, ⟨h3a, h3b, h3d, h3e⟩, (h4 (by norm_num)).2.2.1⟩

/-! ### C5 -/

/-- C5: in every successful disposal the unit sale price is the single
Decimal quotient `total / quantity` of the aggregate disposal, and each
emitted record has `proceeds = quantity * unit_sale_price`,
`basis = quantity * (unit cost of the lot it was drawn from)` and
`gain = proceeds - basis` (all in Decimal arithmetic). -/
theorem C5_fragment_pricing :
    ∀ st ts a (Q t : ℚ) gains,
      (on_sell st ts a Q t).2 = Except.ok gains →
      ∀ r ∈ gains, ∃ l, l ∈ queueOf st a ∧
        r.asset = a ∧ r.sell_date = ts ∧ r.acq_date = l.ts ∧
        r.proceeds = dMul r.quantity (dDiv t Q) ∧
        r.basis = dMul r.quantity l.cost ∧
        r.gain = dSub r.proceeds r.basis := by
  intro st ts a Q t gains hok r hr
  rcases hsell : on_sell st ts a Q t with ⟨st', res⟩
  rw [hsell] at hok
  simp only at hok
  subst hok
  obtain ⟨hQ0, queue, q2, hf, hloop, -⟩ := on_sell_ok_inv st ts a Q t st' gains hsell
  obtain ⟨l, hl, hprops⟩ := sellLoop_mem a ts (dDiv t Q) queue Q q2 gains none hloop r hr
  refine ⟨l, ?_, hprops⟩
  rw [queueOf, hf]
  exact hl

/-- Witness for C5: disposing 1 of 2 BTC units (unit cost 10) for 12 USD. -/
theorem C5_fragment_pricing_witness :
    (on_sell (⟨[("BTC", [⟨0, 2, 10⟩])], [], []⟩ : PState) 5 "BTC" 1 12).2 =
      Except.ok [mkTransactionRecord "BTC" 1 0 5 (dMul 1 (dDiv 12 1)) (dMul 1 10)] ∧
    ∀ r ∈ [mkTransactionRecord "BTC" 1 0 5 (dMul 1 (dDiv 12 1)) (dMul 1 10)],
      ∃ l, l ∈ queueOf (⟨[("BTC", [⟨0, 2, 10⟩])], [], []⟩ : PState) "BTC" ∧
        r.asset = "BTC" ∧ r.sell_date = 5 ∧ r.acq_date = l.ts ∧
        r.proceeds = dMul r.quantity (dDiv 12 1) ∧
        r.basis = dMul r.quantity l.cost ∧
        r.gain = dSub r.proceeds r.basis := by
  refine ⟨rfl, ?_⟩
  exact C5_fragment_pricing (⟨[("BTC", [⟨0, 2, 10⟩])], [], []⟩ : PState) 5 "BTC" 1 12 _ rfl

/-! ### C8 -/

/-- C8: a conversion is the disposal of the source leg (its realized gains
appended to `total_profits`) followed by the acquisition of the target leg
through the buy path, with the income collection untouched; when the
disposal leg raises, the result is exactly the failed disposal's state and
error — the acquisition leg never runs. -/
theorem C8_conversion :
    ∀ st ts sa (sq pr : ℚ) ta (tq tb : ℚ),
      (∀ st1 e, on_sell st ts sa sq pr = (st1, Except.error e) →
        on_convert st ts sa sq pr ta tq tb = (st1, some e) ∧
        st1.total_profits = st.total_profits ∧ st1.other_income = st.other_income) ∧
      (∀ st1 gains, on_sell st ts sa sq pr = (st1, Except.ok gains) →
        on_convert st ts sa sq pr ta tq tb =
          on_buy { st1 with total_profits := st1.total_profits ++ gains } ts ta tq tb ∧
        ((on_convert st ts sa sq pr ta tq tb).1).total_profits =
          st.total_profits ++ gains ∧
        ((on_convert st ts sa sq pr ta tq tb).1).other_income = st.other_income) := by
  intro st ts sa sq pr ta tq tb
  constructor
  · intro st1 e h
    refine ⟨by simp only [on_convert, h], ?_, ?_⟩
    · have := (on_sell_collections st ts sa sq pr).1
      rw [h] at this
      exact this
    · have := (on_sell_collections st ts sa sq pr).2
      rw [h] at this
      exact this
  · intro st1 gains h
    have hconv : on_convert st ts sa sq pr ta tq tb =
        on_buy { st1 with total_profits := st1.total_profits ++ gains } ts ta tq tb := by
      simp only [on_convert, h]
    have hsp : st1.total_profits = st.total_profits := by
      have := (on_sell_collections st ts sa sq pr).1
      rw [h] at this
      exact this
    have hsi : st1.other_income = st.other_income := by
      have := (on_sell_collections st ts sa sq pr).2
      rw [h] at this
      exact this
    refine ⟨hconv, ?_, ?_⟩
    · rw [hconv]
      have := (on_buy_collections { st1 with total_profits := st1.total_profits ++ gains }
        ts ta tq tb).1
      rw [this, hsp]
    · rw [hconv]
      have := (on_buy_collections { st1 with total_profits := st1.total_profits ++ gains }
        ts ta tq tb).2
      rw [this, hsi]

/-- Witness for C8: a conversion whose disposal leg fails (no source lots)
returns that failure and never acquires the target. -/
theorem C8_conversion_witness :
    on_sell initState 0 "AAA" 1 1 = (initState, Except.error (PyErr.keyError "AAA")) ∧
    on_convert initState 0 "AAA" 1 1 "BBB" 1 1 = (initState, some (PyErr.keyError "AAA")) ∧
    initState.total_profits = initState.total_profits ∧
    initState.other_income = initState.other_income := by
  have h : on_sell initState 0 "AAA" 1 1 = (initState, Except.error (PyErr.keyError "AAA")) := rfl
  obtain ⟨hconv, hp, hi⟩ :=
    (C8_conversion initState 0 "AAA" 1 1 "BBB" 1 1).1 initState (PyErr.keyError "AAA") h
  exact ⟨h, hconv, rfl, rfl⟩

/-! ### C3 -/

theorem dSub_five_three : dSub (5 : ℚ) 3 = 2 := by
  rw [dSub, show (5 : ℚ) - 3 = 2 by norm_num]
  exact decRound_int_eval 2 2 (by norm_num) (by norm_num)

/-- C3 as stated is false: disposing 5 units against 3 held does raise (an
`IndexError`, not any `InsufficientLotsError`, which the program does not
define) and yields no records, but the ledger is mutated: the asset's lots
are consumed before the failure, leaving its queue empty. -/
theorem C3_counterexample :
    lotSum (queueOf stBTC3 "BTC") = 3 ∧
    on_sell stBTC3 1 "BTC" 5 10 =
      (({ queues := [("BTC", [])], total_profits := [], other_income := [] } : PState),
        Except.error PyErr.indexError) ∧
    ({ queues := [("BTC", [])], total_profits := [], other_income := [] } : PState) ≠
      stBTC3 := by
  have hnl : ¬ (5 : ℚ) < (⟨0, 3, 1⟩ : Lot).qty := by
    show ¬ (5 : ℚ) < 3
    norm_num
  have hloop : sellLoop "BTC" 1 (dDiv 10 5) [⟨0, 3, 1⟩] 5 =
      ([], [mkTransactionRecord "BTC" 3 0 1 (dMul 3 (dDiv 10 5)) (dMul 3 1)],
        some PyErr.indexError) := by
    rw [sellLoop_pop "BTC" 1 (dDiv 10 5) ⟨0, 3, 1⟩ [] 5 (by norm_num) hnl]
    dsimp only
    rw [dSub_five_three, sellLoop_nil "BTC" 1 (dDiv 10 5) 2 (by norm_num)]
  refine ⟨?_, ?_, ?_⟩
  · show lotSum [(⟨0, 3, 1⟩ : Lot)] = 3
    simp [lotSum]
  · rw [on_sell_err stBTC3 1 "BTC" 5 10 [⟨0, 3, 1⟩] []
      [mkTransactionRecord "BTC" 3 0 1 (dMul 3 (dDiv 10 5)) (dMul 3 1)]
      PyErr.indexError (by norm_num) rfl hloop]
    rfl
  · intro hcon
    have hq := congrArg PState.queues hcon
    simp [stBTC3] at hq

/-- C3 amended: with safe positive quantities, a disposal exceeding the
asset's holdings raises `IndexError` after consuming all of the asset's
lots (the queue is left empty — the ledger is mutated, not restored), and
no realized-gain records escape; for an asset never acquired the lookup
raises `KeyError` before any mutation. -/
theorem C3_insufficient :
    ∀ (k : ℕ) st ts a (Q t : ℚ), 0 < Q → Safe k Q →
      (qFind st.queues a = none →
        on_sell st ts a Q t = (st, Except.error (PyErr.keyError a))) ∧
      (∀ queue, qFind st.queues a = some queue →
        (∀ l ∈ queue, Safe k l.qty ∧ 0 < l.qty) → lotSum queue < Q →
        on_sell st ts a Q t =
          ({ st with queues := qSet st.queues a [] }, Except.error PyErr.indexError)) := by
  intro k st ts a Q t hQ0 hQ
  constructor
  · intro hf
    exact on_sell_keyError st ts a Q t (ne_of_gt hQ0) hf
  · intro queue hf hlots hinsuf
    rcases hloop : sellLoop a ts (dDiv t Q) queue Q with ⟨q2, gains, e⟩
    obtain ⟨h1, h2⟩ := sellLoop_insufficient a ts (dDiv t Q) queue Q hQ
      (fun l hl => (hlots l hl).1) (fun l hl => (hlots l hl).2) hQ0 hinsuf
    rw [hloop] at h1 h2
    simp only at h1 h2
    subst h1
    subst h2
    exact on_sell_err st ts a Q t queue [] gains PyErr.indexError (ne_of_gt hQ0) hf hloop

/-- Witness for the amended C3: disposing 5 units against 3 held. -/
theorem C3_insufficient_witness :
    qFind stBTC3.queues "BTC" = some [⟨0, 3, 1⟩] ∧
    lotSum [(⟨0, 3, 1⟩ : Lot)] < 5 ∧
    on_sell stBTC3 1 "BTC" 5 10 =
      ({ stBTC3 with queues := qSet stBTC3.queues "BTC" [] },
        Except.error PyErr.indexError) ∧
    on_sell initState 1 "XRP" 5 10 = (initState, Except.error (PyErr.keyError "XRP")) := by
  have h := C3_insufficient 0 stBTC3 1 "BTC" 5 10 (by norm_num)
    ⟨5, by norm_num, by norm_num⟩
  have h2 := C3_insufficient 0 initState 1 "XRP" 5 10 (by norm_num)
    ⟨5, by norm_num, by norm_num⟩
  refine ⟨rfl, ?_, ?_, ?_⟩
  · show (3 : ℚ) + 0 < 5
    norm_num
  · apply h.2 [⟨0, 3, 1⟩] rfl ?_ ?_
    · intro l hl
      simp only [List.mem_singleton] at hl
      subst hl
      exact ⟨⟨3, by norm_num, by norm_num⟩, by norm_num⟩
    · show (3 : ℚ) + 0 < 5
      norm_num
  · exact h2.1 rfl

/-! ### C1 -/

/-- C1 amended: with all quantities safe (coefficient below `10^28` over a
common `10^-k` quantum, so no context rounding occurs), consuming `Q ≤`
total holdings succeeds and draws fragments positionally from the front of
the queue: their quantities sum to exactly `Q`, each fragment stays within
its lot's remaining quantity, and every fragment except possibly the last
exhausts its lot — never drawing from a later lot while an earlier one has
remainder. -/
theorem C1_fifo :
    ∀ (k : ℕ) st ts a (Q t : ℚ) queue,
      qFind st.queues a = some queue → Safe k Q → (∀ l ∈ queue, Safe k l.qty) →
      0 < Q → Q ≤ lotSum queue →
      ∃ gains, (on_sell st ts a Q t).2 = Except.ok gains ∧
        (gains.map TransactionRecord.quantity).sum = Q ∧
        gains.length ≤ queue.length ∧
        (∀ pr ∈ gains.zip queue, pr.1.acq_date = pr.2.ts ∧ pr.1.quantity ≤ pr.2.qty) ∧
        (∀ i g l, i + 1 < gains.length → gains[i]? = some g → queue[i]? = some l →
          g.quantity = l.qty) := by
  intro k st ts a Q t queue hf hQ hlots hQ0 hle
  obtain ⟨q2, gains, hloop, hsum, hlen, hzip, hlast⟩ :=
    sellLoop_sufficient (Safe k) a ts (dDiv t Q) (fun x hx => hx)
      (fun x y hx hy hxy => hx.sub_safe hy hxy) queue Q hQ hlots hQ0 hle
  refine ⟨gains, ?_, hsum, hlen, fun pr hpr => ⟨(hzip pr hpr).1, (hzip pr hpr).2.1⟩, hlast⟩
  rw [on_sell_ok st ts a Q t queue q2 gains (ne_of_gt hQ0) hf hloop]

/-- Witness for the amended C1: the spec's simple-FIFO-split scenario,
disposing 2.5 units against lots of 1 and 2 units. -/
theorem C1_fifo_witness :
    qFind stSplit.queues "BTC" = some [⟨0, 1, 100⟩, ⟨10, 2, 200⟩] ∧
    (0 : ℚ) < 5 / 2 ∧ (5 / 2 : ℚ) ≤ lotSum [⟨0, 1, 100⟩, ⟨10, 2, 200⟩] ∧
    ∃ gains, (on_sell stSplit 400 "BTC" (5 / 2) 1000).2 = Except.ok gains ∧
      (gains.map TransactionRecord.quantity).sum = 5 / 2 ∧
      gains.length ≤ ([(⟨0, 1, 100⟩ : Lot), ⟨10, 2, 200⟩] : List Lot).length ∧
      (∀ pr ∈ gains.zip [(⟨0, 1, 100⟩ : Lot), ⟨10, 2, 200⟩],
        pr.1.acq_date = pr.2.ts ∧ pr.1.quantity ≤ pr.2.qty) ∧
      (∀ i g l, i + 1 < gains.length → gains[i]? = some g →
        ([(⟨0, 1, 100⟩ : Lot), ⟨10, 2, 200⟩] : List Lot)[i]? = some l →
        g.quantity = l.qty) := by
  have hsum : (5 / 2 : ℚ) ≤ lotSum [⟨0, 1, 100⟩, ⟨10, 2, 200⟩] := by
    simp [lotSum]
    norm_num
  refine ⟨rfl, by norm_num, hsum, ?_⟩
  apply C1_fifo 1 stSplit 400 "BTC" (5 / 2) 1000 [⟨0, 1, 100⟩, ⟨10, 2, 200⟩] rfl
    ⟨25, by norm_num, by norm_num⟩ ?_ (by norm_num) hsum
  intro l hl
  rcases List.mem_cons.mp hl with h | h
  · subst h
    exact ⟨10, by norm_num, by show (1 : ℚ) = 10 / 10 ^ 1; norm_num⟩
  · simp only [List.mem_singleton] at h
    subst h
    exact ⟨20, by norm_num, by show (2 : ℚ) = 20 / 10 ^ 1; norm_num⟩

/-- C1 as stated (for arbitrary Decimal quantities) is false: against lots
of `1` and `2E+29` units, a disposal of `1E+29` draws `1E+29 + 1` units in
total, because the context rounds the 29-digit intermediate difference
`1E+29 - 1` back up to `1E+29`. -/
theorem C1_counterexample :
    (0 : ℚ) < 10 ^ 29 ∧
    (10 ^ 29 : ℚ) ≤ lotSum (queueOf stBig "BTC") ∧
    (on_sell stBig 2 "BTC" (10 ^ 29) (10 ^ 29)).2.map
      (fun gs => (gs.map TransactionRecord.quantity).sum) = Except.ok (1 + 10 ^ 29) ∧
    (1 + 10 ^ 29 : ℚ) ≠ 10 ^ 29 := by
  have hpop : ¬ (10 : ℚ) ^ 29 < (⟨0, 1, 1⟩ : Lot).qty := by
    show ¬ (10 : ℚ) ^ 29 < 1
    norm_num
  have hsplit : (10 : ℚ) ^ 29 < (⟨1, 2 * 10 ^ 29, 1⟩ : Lot).qty := by
    show (10 : ℚ) ^ 29 < 2 * 10 ^ 29
    norm_num
  have hloop : sellLoop "BTC" 2 (dDiv (10 ^ 29) (10 ^ 29))
      [⟨0, 1, 1⟩, ⟨1, 2 * 10 ^ 29, 1⟩] (10 ^ 29) =
      ([⟨1, dSub (2 * 10 ^ 29) (10 ^ 29), 1⟩],
        [mkTransactionRecord "BTC" 1 0 2 (dMul 1 (dDiv (10 ^ 29) (10 ^ 29))) (dMul 1 1),
          mkTransactionRecord "BTC" (10 ^ 29) 1 2
            (dMul (10 ^ 29) (dDiv (10 ^ 29) (10 ^ 29))) (dMul (10 ^ 29) 1)],
        none) := by
    rw [sellLoop_pop "BTC" 2 (dDiv (10 ^ 29) (10 ^ 29)) ⟨0, 1, 1⟩
      [⟨1, 2 * 10 ^ 29, 1⟩] (10 ^ 29) (by norm_num) hpop]
    dsimp only
    rw [dSub_pow29_one]
    rw [sellLoop_split "BTC" 2 (dDiv (10 ^ 29) (10 ^ 29)) ⟨1, 2 * 10 ^ 29, 1⟩ []
      (10 ^ 29) (by norm_num) hsplit]
  refine ⟨by norm_num, ?_, ?_, by norm_num⟩
  · show (10 ^ 29 : ℚ) ≤ lotSum [⟨0, 1, 1⟩, ⟨1, 2 * 10 ^ 29, 1⟩]
    simp [lotSum]
    norm_num
  · rw [on_sell_ok stBig 2 "BTC" (10 ^ 29) (10 ^ 29) [⟨0, 1, 1⟩, ⟨1, 2 * 10 ^ 29, 1⟩]
      [⟨1, dSub (2 * 10 ^ 29) (10 ^ 29), 1⟩] _ (by norm_num) rfl hloop]
    simp only [Except.map, mkTransactionRecord, List.map_cons, List.map_nil, List.sum_cons,
      List.sum_nil, Except.ok.injEq]
    ring

/-! ### C2 -/

/-- C2 amended: over any sequence of successful acquires and consumes with
positive, safe quantities (coefficients below `10^28` over a common
`10^-k` quantum, so no context rounding occurs) on uppercase symbols, each
asset's remaining open-lot total equals its acquired total minus its
disposed total exactly, and no lot with zero (or negative) remaining
quantity ever persists in any queue. -/
theorem C2_conservation :
    ∀ (k : ℕ) (ops : List Op) (st : PState),
      (∀ op ∈ ops, OpOK k op) → runOps initState ops = some st →
      (∀ A, lotSum (queueOf st A) = acquiredSum A ops - disposedSum A ops) ∧
      (∀ e ∈ st.queues, ∀ l ∈ e.2, 0 < l.qty) := by
  intro k ops st hok hrun
  obtain ⟨hq, hsum⟩ := runOps_conservation ops initState st hok
    (by intro e he; simp [initState] at he) hrun
  constructor
  · intro A
    rw [hsum A, opsDelta_eq]
    simp [initState, queueOf, qFind, lotSum]
  · intro e he l hl
    exact (hq e he l hl).2

/-- Witness for the amended C2: buy 2, sell 1, leaving exactly 1 unit. -/
theorem C2_conservation_witness :
    runOps initState [Op.buy 0 "BTC" 2 4, Op.sell 1 "BTC" 1 2] =
      some ⟨[("BTC", [⟨0, dSub 2 1, dDiv 4 2⟩])],
        [mkTransactionRecord "BTC" 1 0 1 (dMul 1 (dDiv 2 1)) (dMul 1 (dDiv 4 2))], []⟩ ∧
    (∀ A, lotSum (queueOf (⟨[("BTC", [⟨0, dSub 2 1, dDiv 4 2⟩])],
        [mkTransactionRecord "BTC" 1 0 1 (dMul 1 (dDiv 2 1)) (dMul 1 (dDiv 4 2))], []⟩ :
          PState) A) =
      acquiredSum A [Op.buy 0 "BTC" 2 4, Op.sell 1 "BTC" 1 2] -
        disposedSum A [Op.buy 0 "BTC" 2 4, Op.sell 1 "BTC" 1 2]) ∧
    (∀ e ∈ (⟨[("BTC", [⟨0, dSub 2 1, dDiv 4 2⟩])],
        [mkTransactionRecord "BTC" 1 0 1 (dMul 1 (dDiv 2 1)) (dMul 1 (dDiv 4 2))], []⟩ :
          PState).queues, ∀ l ∈ e.2, 0 < l.qty) := by
  have hok : ∀ op ∈ [Op.buy 0 "BTC" 2 4, Op.sell 1 "BTC" 1 2], OpOK 0 op := by
    intro op hop
    rcases List.mem_cons.mp hop with h | h
    · subst h
      exact ⟨by norm_num, ⟨2, by norm_num, by norm_num⟩, by decide⟩
    · simp only [List.mem_singleton] at h
      subst h
      exact ⟨by norm_num, ⟨1, by norm_num, by norm_num⟩, by decide⟩
  have hrun : runOps initState [Op.buy 0 "BTC" 2 4, Op.sell 1 "BTC" 1 2] =
      some ⟨[("BTC", [⟨0, dSub 2 1, dDiv 4 2⟩])],
        [mkTransactionRecord "BTC" 1 0 1 (dMul 1 (dDiv 2 1)) (dMul 1 (dDiv 4 2))], []⟩ := rfl
  obtain ⟨h1, h2⟩ := C2_conservation 0 [Op.buy 0 "BTC" 2 4, Op.sell 1 "BTC" 1 2] _ hok hrun
  exact ⟨hrun, h1, h2⟩

/-- The post-state of the rounding counterexample run: after acquiring
`1E+29` units and disposing 1, the lot still holds `dSub 1E+29 1`. -/
def stRound : PState :=
  { queues := [("BTC", [⟨0, dSub (10 ^ 29) 1, dDiv (10 ^ 29) (10 ^ 29)⟩])],
    total_profits := [mkTransactionRecord "BTC" 1 0 1 (dMul 1 (dDiv 1 1))
      (dMul 1 (dDiv (10 ^ 29) (10 ^ 29)))],
    other_income := [] }

/-- C2 as stated (for arbitrary positive Decimal quantities) is false:
acquire `1E+29` units, then successfully dispose 1 unit — the context
rounds the lot's new remaining quantity `1E+29 - 1` (29 digits) back to
`1E+29`, so remaining ≠ acquired − disposed. -/
theorem C2_counterexample :
    (0 : ℚ) < 10 ^ 29 ∧ (0 : ℚ) < 1 ∧
    runOps initState [Op.buy 0 "BTC" (10 ^ 29) (10 ^ 29), Op.sell 1 "BTC" 1 1] =
      some stRound ∧
    lotSum (queueOf stRound "BTC") = 10 ^ 29 ∧
    acquiredSum "BTC" [Op.buy 0 "BTC" (10 ^ 29) (10 ^ 29), Op.sell 1 "BTC" 1 1] -
      disposedSum "BTC" [Op.buy 0 "BTC" (10 ^ 29) (10 ^ 29), Op.sell 1 "BTC" 1 1] =
      10 ^ 29 - 1 ∧
    (10 ^ 29 : ℚ) ≠ 10 ^ 29 - 1 := by
  have h1 : on_buy initState 0 "BTC" (10 ^ 29) (10 ^ 29) =
      (⟨[("BTC", [⟨0, 10 ^ 29, dDiv (10 ^ 29) (10 ^ 29)⟩])], [], []⟩, none) := by
    rw [on_buy_upper initState 0 "BTC" (10 ^ 29) (10 ^ 29) (by decide) (by norm_num)]
    rfl
  have hstep1 : step initState (Op.buy 0 "BTC" (10 ^ 29) (10 ^ 29)) =
      some ⟨[("BTC", [⟨0, 10 ^ 29, dDiv (10 ^ 29) (10 ^ 29)⟩])], [], []⟩ := by
    simp only [step, h1]
  have hcond : (1 : ℚ) < (⟨0, 10 ^ 29, dDiv (10 ^ 29) (10 ^ 29)⟩ : Lot).qty := by
    show (1 : ℚ) < 10 ^ 29
    norm_num
  have hloop : sellLoop "BTC" 1 (dDiv 1 1) [⟨0, 10 ^ 29, dDiv (10 ^ 29) (10 ^ 29)⟩] 1 =
      ([⟨0, dSub (10 ^ 29) 1, dDiv (10 ^ 29) (10 ^ 29)⟩],
        [mkTransactionRecord "BTC" 1 0 1 (dMul 1 (dDiv 1 1))
          (dMul 1 (dDiv (10 ^ 29) (10 ^ 29)))], none) := by
    rw [sellLoop_split "BTC" 1 (dDiv 1 1) ⟨0, 10 ^ 29, dDiv (10 ^ 29) (10 ^ 29)⟩ []
      1 (by norm_num) hcond]
  have h2 : on_sell (⟨[("BTC", [⟨0, 10 ^ 29, dDiv (10 ^ 29) (10 ^ 29)⟩])], [], []⟩ : PState)
      1 "BTC" 1 1 =
      (⟨[("BTC", [⟨0, dSub (10 ^ 29) 1, dDiv (10 ^ 29) (10 ^ 29)⟩])], [], []⟩,
        Except.ok [mkTransactionRecord "BTC" 1 0 1 (dMul 1 (dDiv 1 1))
          (dMul 1 (dDiv (10 ^ 29) (10 ^ 29)))]) := by
    rw [on_sell_ok (⟨[("BTC", [⟨0, 10 ^ 29, dDiv (10 ^ 29) (10 ^ 29)⟩])], [], []⟩ : PState)
      1 "BTC" 1 1 [⟨0, 10 ^ 29, dDiv (10 ^ 29) (10 ^ 29)⟩]
      [⟨0, dSub (10 ^ 29) 1, dDiv (10 ^ 29) (10 ^ 29)⟩] _ (by norm_num) rfl hloop]
    rfl
  have hstep2 : step (⟨[("BTC", [⟨0, 10 ^ 29, dDiv (10 ^ 29) (10 ^ 29)⟩])], [], []⟩ : PState)
      (Op.sell 1 "BTC" 1 1) = some stRound := by
    simp only [step, h2, stRound, List.nil_append]
  refine ⟨by norm_num, by norm_num, ?_, ?_, ?_, by norm_num⟩
  · simp only [runOps, hstep1, hstep2]
  · show lotSum [⟨0, dSub (10 ^ 29) 1, dDiv (10 ^ 29) (10 ^ 29)⟩] = 10 ^ 29
    simp [lotSum, dSub_pow29_one]
  · simp only [acquiredSum, disposedSum]
    norm_num

/-! ### C4 -/

/-- C4 amended: when the arithmetic stays within the context's precision —
quantities, unit costs and the unit sale price all of the form `n / 10^k`
with `n < 10^14`, and `proceeds_usd = quantity * unit_sale_price` exactly —
a sufficient disposal splits into fragments whose basis amounts sum exactly
to the aggregate basis drawn from the consumed lots (fragment quantity
times that lot's unit cost), and whose proceeds amounts sum exactly to the
aggregate `proceeds_usd`.  (Outside this range the context rounds: see the
counterexample.) -/
theorem C4_basis_additivity :
    ∀ (k : ℕ) st ts a (Q t p : ℚ) queue,
      qFind st.queues a = some queue →
      SafeSmall k Q → (∀ l ∈ queue, SafeSmall k l.qty ∧ SafeSmall k l.cost) →
      SafeSmall k p → t = Q * p → 0 < Q → Q ≤ lotSum queue →
      ∃ gains, (on_sell st ts a Q t).2 = Except.ok gains ∧
        (gains.map TransactionRecord.basis).sum =
          ((gains.zip queue).map (fun pr => pr.1.quantity * pr.2.cost)).sum ∧
        (gains.map TransactionRecord.proceeds).sum = t := by
  intro k st ts a Q t p queue hf hQ hlots hp ht hQ0 hle
  have hQne : Q ≠ 0 := ne_of_gt hQ0
  have hdiv : dDiv t Q = p := by
    rw [dDiv, ht, mul_comm, mul_div_assoc, div_self hQne, mul_one]
    exact hp.safe.decRound_self
  obtain ⟨q2, gains, hloop, hsum, hlen, hzip, hlast⟩ :=
    sellLoop_sufficient (SafeSmall k) a ts (dDiv t Q) (fun x hx => hx.safe)
      (fun x y hx hy hxy => hx.sub_small hy hxy) queue Q hQ (fun l hl => (hlots l hl).1) hQ0 hle
  have hzip' : ∀ pr ∈ gains.zip queue, pr.1.basis = pr.1.quantity * pr.2.cost ∧
      pr.1.proceeds = pr.1.quantity * p := by
    intro pr hpr
    obtain ⟨-, -, hPq, hbasis, hproc⟩ := hzip pr hpr
    have hmem : pr.2 ∈ queue := (List.of_mem_zip hpr).2
    constructor
    · rw [hbasis, hPq.dMul_exact (hlots pr.2 hmem).2]
    · rw [hproc, hdiv, hPq.dMul_exact hp]
  obtain ⟨hb, hpr2⟩ := zip_sums gains queue p hlen hzip'
  refine ⟨gains, ?_, hb, ?_⟩
  · rw [on_sell_ok st ts a Q t queue q2 gains hQne hf hloop]
  · rw [hpr2, hsum, ht]

/-- Witness for the amended C4: the spec's split scenario — 2.5 units for
1000 USD against lots of 1 at 100 and 2 at 200 USD/unit. -/
theorem C4_basis_additivity_witness :
    qFind stSplit.queues "BTC" = some [⟨0, 1, 100⟩, ⟨10, 2, 200⟩] ∧
    (1000 : ℚ) = (5 / 2) * 400 ∧ (0 : ℚ) < 5 / 2 ∧
    (5 / 2 : ℚ) ≤ lotSum [⟨0, 1, 100⟩, ⟨10, 2, 200⟩] ∧
    ∃ gains, (on_sell stSplit 400 "BTC" (5 / 2) 1000).2 = Except.ok gains ∧
      (gains.map TransactionRecord.basis).sum =
        ((gains.zip [(⟨0, 1, 100⟩ : Lot), ⟨10, 2, 200⟩]).map
          (fun pr => pr.1.quantity * pr.2.cost)).sum ∧
      (gains.map TransactionRecord.proceeds).sum = 1000 := by
  have hsum : (5 / 2 : ℚ) ≤ lotSum [⟨0, 1, 100⟩, ⟨10, 2, 200⟩] := by
    simp [lotSum]
    norm_num
  refine ⟨rfl, by norm_num, by norm_num, hsum, ?_⟩
  apply C4_basis_additivity 1 stSplit 400 "BTC" (5 / 2) 1000 400
    [⟨0, 1, 100⟩, ⟨10, 2, 200⟩] rfl ⟨25, by norm_num, by norm_num⟩ ?_
    ⟨4000, by norm_num, by norm_num⟩ (by norm_num) (by norm_num) hsum
  intro l hl
  rcases List.mem_cons.mp hl with h | h
  · subst h
    exact ⟨⟨10, by norm_num, by show (1 : ℚ) = 10 / 10 ^ 1; norm_num⟩,
      ⟨1000, by norm_num, by show (100 : ℚ) = 1000 / 10 ^ 1; norm_num⟩⟩
  · simp only [List.mem_singleton] at h
    subst h
    exact ⟨⟨20, by norm_num, by show (2 : ℚ) = 20 / 10 ^ 1; norm_num⟩,
      ⟨2000, by norm_num, by show (200 : ℚ) = 2000 / 10 ^ 1; norm_num⟩⟩

theorem dSub_three_three : dSub (3 : ℚ) 3 = 0 := by
  rw [dSub, show (3 : ℚ) - 3 = 0 by norm_num, decRound_zero]

/-- C4 as stated (exact reconstruction for all Decimal inputs) is false:
disposing 3 units for 1 USD computes the rounded unit price
`Decimal(1)/Decimal(3)` (28 threes), and the single fragment's proceeds
`3 * (1/3)` come out as `0.9999999999999999999999999999`, not the
aggregate proceeds 1. -/
theorem C4_counterexample :
    (0 : ℚ) < 3 ∧ (3 : ℚ) ≤ lotSum (queueOf stBTC3 "BTC") ∧
    (on_sell stBTC3 1 "BTC" 3 1).2.map
      (fun gs => (gs.map TransactionRecord.proceeds).sum) =
      Except.ok ((9999999999999999999999999999 : ℚ) / 10 ^ 28) ∧
    (9999999999999999999999999999 : ℚ) / 10 ^ 28 ≠ 1 := by
  have hnl : ¬ (3 : ℚ) < (⟨0, 3, 1⟩ : Lot).qty := by
    show ¬ (3 : ℚ) < 3
    norm_num
  have hloop : sellLoop "BTC" 1 (dDiv 1 3) [⟨0, 3, 1⟩] 3 =
      ([], [mkTransactionRecord "BTC" 3 0 1 (dMul 3 (dDiv 1 3)) (dMul 3 1)], none) := by
    rw [sellLoop_pop "BTC" 1 (dDiv 1 3) ⟨0, 3, 1⟩ [] 3 (by norm_num) hnl]
    dsimp only
    rw [dSub_three_three, sellLoop_nonpos "BTC" 1 (dDiv 1 3) [] 0 (by norm_num)]
  have hmul : dMul 3 (dDiv 1 3) = (9999999999999999999999999999 : ℚ) / 10 ^ 28 := by
    rw [dDiv_one_three, dMul,
      show (3 : ℚ) * ((3333333333333333333333333333 : ℚ) / 10 ^ 28) =
        (9999999999999999999999999999 : ℚ) / 10 ^ 28 by norm_num]
    exact_mod_cast decRound_div_pow 9999999999999999999999999999 28 (by norm_num)
  refine ⟨by norm_num, ?_, ?_, by norm_num⟩
  · show (3 : ℚ) ≤ lotSum [(⟨0, 3, 1⟩ : Lot)]
    simp [lotSum]
  · rw [on_sell_ok stBTC3 1 "BTC" 3 1 [⟨0, 3, 1⟩] []
      [mkTransactionRecord "BTC" 3 0 1 (dMul 3 (dDiv 1 3)) (dMul 3 1)]
      (by norm_num) rfl hloop]
    simp only [Except.map, mkTransactionRecord, List.map_cons, List.map_nil, List.sum_cons,
      List.sum_nil, Except.ok.injEq, add_zero]
    exact hmul

end ProfitCalc
